import Mathlib

/-!
Shallow embedding of the `self_update` crate (release self-update library)
and verification of its specification claims.

The embedding follows the Rust sources:
* `src/errors.rs`   — the error taxonomy (`Error` below);
* `src/lib.rs`      — `confirm`, `detect_archive`, `Extract::extract_file`,
  `Move::to_dest`, `Download::download_to`;
* `src/update.rs`   — `Release`, `ReleaseAsset`, `Release::asset_for`,
  `ReleaseUpdate::update_extended` / `update`;
* `src/backends/s3.rs` — `get_latest_release`, `fetch_releases_from_s3`,
  `add_to_releases_list`.

External collaborators (the HTTP client, the tar/zip/gzip codecs, the
filesystem and the XML pull reader) are modelled as explicit inputs or
oracles, exactly at the boundary where the crate calls them.
-/

namespace SelfUpdate

/-- Payload of a failed zip-library call, mirroring `zip::result::ZipError`
as far as the embedding needs it (`by_name` on a missing entry returns
`FileNotFound`). -/
inductive ZipErr where
  | fileNotFound
  | other (msg : String)
  deriving Repr, DecidableEq

/-- Mirror of `errors::Error` (src/errors.rs): the crate's error taxonomy.
Foreign-library wrappers carry the data the embedding needs. -/
inductive Error where
  | update (msg : String)
  | network (msg : String)
  | release (msg : String)
  | config (msg : String)
  | ioError (msg : String)
  | zipError (e : ZipErr)
  | jsonError (msg : String)
  | reqwestError (msg : String)
  | semVer (msg : String)
  | archiveNotEnabled (s : String)
  deriving Repr, DecidableEq

/-! ## `confirm` (src/lib.rs lines 169-179)

Reads a line from stdin, trims it, lowercases it, and errors unless the
result is empty or `"y"`.  The stdin line is the `input` argument. -/

/-- Model of Rust `str::trim` composed with `str::to_lowercase`: strip
leading and trailing whitespace, then lowercase (for the ASCII inputs the
prompt deals in, `Char.toLower` agrees with Rust). -/
def trimLower (s : String) : String :=
  ⟨((s.data.dropWhile Char.isWhitespace).reverse.dropWhile
      Char.isWhitespace).reverse.map Char.toLower⟩

/-- Transcription of `confirm` (src/lib.rs 169-179): the flushed prompt is
console-only; the decision is on the trimmed, lowercased input line. -/
def confirm (input : String) : Except Error Unit :=
  let s := trimLower input
  if s ≠ "" ∧ s ≠ "y" then .error (.update "Update aborted") else .ok ()

/-! ## `Move::to_dest` (src/lib.rs lines 517-535)

The filesystem is a partial map from paths to file contents (contents are
abstracted as `Nat` identifiers).  `std::fs::rename` may be refused by the
OS — the `fail` oracle says which renames are refused (e.g. a
permission-protected target) — and always fails when the source path is
missing.  A failed rename leaves the filesystem unchanged. -/

/-- Abstract filesystem: path to optional file contents. -/
def Fs : Type := String → Option Nat

/-- Error message a failed rename carries; it names the rename that
failed, so "the original error" is distinguishable from a later one. -/
def renameErrMsg (src dst : String) : String :=
  "rename " ++ src ++ " to " ++ dst ++ " failed"

/-- One `std::fs::rename(src, dst)` call against filesystem `fs`. -/
def rename (fail : String → String → Bool) (fs : Fs) (src dst : String) :
    Except Error Fs :=
  if fail src dst ∨ (fs src).isNone then
    .error (.ioError (renameErrMsg src dst))
  else
    .ok (fun p => if p = dst then fs src else if p = src then none else fs p)

/-- Transcription of `Move::to_dest` (src/lib.rs 517-535).  `temp = none`
is a `Move` without `replace_using_temp`; the result is the final
filesystem together with the returned `Result`. -/
def to_dest (fail : String → String → Bool) (fs : Fs)
    (source : String) (temp : Option String) (dest : String) :
    Fs × Except Error Unit :=
  match temp with
  | none =>
    match rename fail fs source dest with
    | .ok fs1 => (fs1, .ok ())
    | .error e => (fs, .error e)
  | some temp =>
    if (fs dest).isSome then
      match rename fail fs dest temp with
      | .error e => (fs, .error e)
      | .ok fs1 =>
        match rename fail fs1 source dest with
        | .ok fs2 => (fs2, .ok ())
        | .error e =>
          match rename fail fs1 temp dest with
          | .ok fs3 => (fs3, .error e)
          | .error e2 => (fs1, .error e2)
    else
      match rename fail fs source dest with
      | .ok fs1 => (fs1, .ok ())
      | .error e => (fs, .error e)

end SelfUpdate

namespace SelfUpdate

/-- C1: for `Move` configured with `replace_using_temp(temp)`:
(i) when `dest` exists and the backup rename succeeds but the
`source -> dest` rename is refused, the temp backup is renamed back so the
final filesystem still holds the original file at `dest`, and the error of
the failed `source -> dest` rename (the original error) is returned;
(ii) when `dest` does not exist, `source` is renamed directly to `dest`
with no backup step and `temp` is never touched;
(iii) when `dest` exists and both renames succeed, `dest` ends up holding
the source file.  So the destination is never left missing or holding a
partial artifact. -/
theorem move_to_dest_backup_restore
    (fail : String → String → Bool) (fs : Fs)
    (source temp dest : String) (orig : Nat)
    (htd : temp ≠ dest) (hst : source ≠ temp) (hsd : source ≠ dest) :
    ((fs dest = some orig → fail dest temp = false →
      fail source dest = true → fail temp dest = false →
        (to_dest fail fs source (some temp) dest).1 dest = some orig ∧
        (to_dest fail fs source (some temp) dest).2 =
          .error (.ioError (renameErrMsg source dest)))
    ∧ (fs dest = none →
        (to_dest fail fs source (some temp) dest).1 temp = fs temp ∧
        to_dest fail fs source (some temp) dest =
          (match rename fail fs source dest with
           | .ok fs1 => (fs1, .ok ())
           | .error e => (fs, .error e)))
    ∧ (∀ newF : Nat, fs dest = some orig → fs source = some newF →
        fail dest temp = false → fail source dest = false →
          to_dest fail fs source (some temp) dest =
            ((fun p => if p = dest then some newF
                       else if p = source then none
                       else if p = temp then some orig
                       else fs p), .ok ()))) := by
  refine ⟨?_, ?_, ?_⟩
  · intro hex hb hf hr
    have e1 : rename fail fs dest temp =
        .ok (fun p => if p = temp then fs dest else if p = dest then none else fs p) := by
      unfold rename
      rw [if_neg (by simp [hb, hex])]
    set fsB : Fs :=
      fun p => if p = temp then fs dest else if p = dest then none else fs p with hfsB
    have hBtemp : fsB temp = some orig := by simp [hfsB, hex]
    have e2 : rename fail fsB source dest =
        .error (.ioError (renameErrMsg source dest)) := by
      unfold rename
      rw [if_pos (Or.inl hf)]
    have e3 : rename fail fsB temp dest =
        .ok (fun p => if p = dest then fsB temp else if p = temp then none else fsB p) := by
      unfold rename
      rw [if_neg (by simp [hr, hBtemp])]
    simp only [to_dest, hex, Option.isSome_some, if_true, e1, e2, e3]
    constructor
    · simp [hBtemp]
    · trivial
  · intro hnone
    have hsplit : to_dest fail fs source (some temp) dest =
        (match rename fail fs source dest with
         | .ok fs1 => (fs1, .ok ())
         | .error e => (fs, .error e)) := by
      simp only [to_dest, hnone, Option.isSome_none, Bool.false_eq_true, if_false]
    refine ⟨?_, hsplit⟩
    rw [hsplit]
    cases h : rename fail fs source dest with
    | ok fs1 =>
      have : fs1 temp = fs temp := by
        unfold rename at h
        split at h
        · exact absurd h (by simp)
        · injection h with h'
          rw [← h']
          simp [htd, Ne.symm hst]
      simpa using this
    | error e => simp
  · intro newF hex hsrc hb hf
    have e1 : rename fail fs dest temp =
        .ok (fun p => if p = temp then fs dest else if p = dest then none else fs p) := by
      unfold rename
      rw [if_neg (by simp [hb, hex])]
    set fsB : Fs :=
      fun p => if p = temp then fs dest else if p = dest then none else fs p with hfsB
    have hBsrc : fsB source = some newF := by simp [hfsB, hst, hsd, hsrc]
    have e2 : rename fail fsB source dest =
        .ok (fun p => if p = dest then fsB source else if p = source then none else fsB p) := by
      unfold rename
      rw [if_neg (by simp [hf, hBsrc])]
    simp only [to_dest, hex, Option.isSome_some, if_true, e1, e2]
    refine Prod.ext (funext fun p => ?_) rfl
    by_cases hp1 : p = dest
    · simp [hp1, hBsrc, hsd]
    · by_cases hp2 : p = source
      · simp [hp1, hp2, hsd]
      · by_cases hp3 : p = temp
        · simp [hfsB, hp1, hp2, hp3, hex, htd, Ne.symm hst]
        · simp [hfsB, hp1, hp2, hp3]

/-- Concrete filesystem for the C1 witness: `dst` holds file 1, `src`
holds file 2, everything else missing. -/
def fsW : Fs := fun p =>
  if p = "dst" then some 1 else if p = "src" then some 2 else none

/-- Rename-refusal oracle for the C1 witness: only `src -> dst` fails. -/
def failW : String → String → Bool := fun s d => s == "src" && d == "dst"

/-- Witness for C1 at a concrete filesystem: the backup-restore invariant
holds with the rename of `src` onto `dst` refused. -/
theorem move_to_dest_backup_restore_witness :
    (to_dest failW fsW "src" (some "tmp") "dst").1 "dst" = some 1 ∧
    (to_dest failW fsW "src" (some "tmp") "dst").2 =
      .error (.ioError (renameErrMsg "src" "dst")) := by
  have h := move_to_dest_backup_restore failW fsW "src" "tmp" "dst" 1
    (by decide) (by decide) (by decide)
  exact h.1 rfl rfl rfl rfl

/-- C4 counterexample: the input line `yes` does not confirm — `confirm`
aborts with the `Update`-kind error, while the claim says `yes` is
accepted. -/
theorem confirm_yes_counterexample :
    confirm "yes" = .error (.update "Update aborted") := rfl

/-- C4 amended: `confirm` returns `Ok` exactly when the trimmed,
lowercased input is blank or `y`; every other input aborts with the
`Update`-kind error `Update aborted` (so `yes` aborts too). -/
theorem confirm_blank_or_y (s : String) :
    (confirm s = .ok () ↔ (trimLower s = "" ∨ trimLower s = "y")) ∧
    (trimLower s ≠ "" → trimLower s ≠ "y" →
      confirm s = .error (.update "Update aborted")) := by
  unfold confirm
  by_cases h1 : trimLower s = ""
  · simp [h1]
  · by_cases h2 : trimLower s = "y"
    · simp [h1, h2]
    · simp [h1, h2]

/-- Witness for C4 at the concrete input `no`: both hypotheses hold and
the prompt aborts. -/
theorem confirm_blank_or_y_witness :
    trimLower "no" ≠ "" ∧ trimLower "no" ≠ "y" ∧
    confirm "no" = .error (.update "Update aborted") :=
  ⟨by decide, by decide, (confirm_blank_or_y "no").2 (by decide) (by decide)⟩

end SelfUpdate

namespace SelfUpdate

/-! ## `Download::download_to` (src/lib.rs lines 589-654)

The HTTP transport is an external collaborator: completing the GET yields
a response with a status, a textual status description, an optional
content length and a body delivered in buffered chunks.  `download_to`
checks the status and, only on success, streams the body chunks into the
caller-supplied sink. -/

/-- The response handed back by the blocking HTTP client. -/
structure HttpResponse where
  statusSuccess : Bool
  statusText : String
  contentLength : Nat
  body : List (List Nat)
  deriving Repr, DecidableEq

/-- The `fill_buf` / `write_all` / `consume` copy loop of `download_to`:
writes each buffered chunk to the sink, stopping at the first empty fill
(end of stream). -/
def copyChunks : List (List Nat) → List Nat
  | [] => []
  | c :: rest => if c.isEmpty then [] else c ++ copyChunks rest

/-- When no chunk is empty the copy loop writes the whole body. -/
theorem copyChunks_eq_flatten (l : List (List Nat)) (h : ∀ c ∈ l, c ≠ []) :
    copyChunks l = l.flatten := by
  induction l with
  | nil => simp [copyChunks]
  | cons c rest ih =>
    have hc : c ≠ [] := h c (by simp)
    simp only [copyChunks, List.isEmpty_iff, hc, if_false, List.flatten_cons]
    rw [ih (fun c' hc' => h c' (by simp [hc']))]

/-- Transcription of `Download::download_to` (src/lib.rs 589-654): read
the content length, fail on a non-success status — via
`bail!(Error::Update, "Download request failed with status: ...")` — and
otherwise stream the body into the sink.  Returns the result and the
bytes written to the sink. -/
def download_to (resp : HttpResponse) : Except Error Unit × List Nat :=
  if !resp.statusSuccess then
    (.error (.update ("Download request failed with status: " ++ resp.statusText)),
     [])
  else
    (.ok (), copyChunks resp.body)

/-- C3 counterexample: on a non-success status the error raised is the
`Update` kind (`bail!(Error::Update, ...)` at src/lib.rs 615-621), not
the `Network` kind the claim names, and nothing reaches the sink. -/
theorem download_to_update_kind_counterexample :
    download_to ⟨false, "404 Not Found", 10, [[1, 2, 3]]⟩ =
      (.error (.update "Download request failed with status: 404 Not Found"), []) := rfl

/-- C3 amended: `download_to` issues the GET and fails with an
`Update`-kind error whenever the response status is not a success status,
writing nothing to the sink; the body is streamed into the sink only on
success (all of it, when no chunk is empty). -/
theorem download_to_status_check (resp : HttpResponse) :
    (resp.statusSuccess = false →
      download_to resp =
        (.error (.update ("Download request failed with status: " ++ resp.statusText)),
         [])) ∧
    (resp.statusSuccess = true →
      download_to resp = (.ok (), copyChunks resp.body) ∧
      ((∀ c ∈ resp.body, c ≠ []) → (download_to resp).2 = resp.body.flatten)) := by
  constructor
  · intro h
    simp [download_to, h]
  · intro h
    refine ⟨by simp [download_to, h], fun hne => ?_⟩
    simp only [download_to, h, Bool.not_true, Bool.false_eq_true, if_false]
    exact copyChunks_eq_flatten resp.body hne

/-- Witness for C3 at concrete responses: a failing status yields the
`Update` error and an empty sink, a succeeding one streams the body. -/
theorem download_to_status_check_witness :
    download_to ⟨false, "500", 0, [[7]]⟩ =
      (.error (.update "Download request failed with status: 500"), []) ∧
    download_to ⟨true, "200 OK", 2, [[1], [2]]⟩ = (.ok (), [1, 2]) ∧
    (download_to ⟨true, "200 OK", 2, [[1], [2]]⟩).2 = ([[1], [2]] : List (List Nat)).flatten :=
  ⟨(download_to_status_check ⟨false, "500", 0, [[7]]⟩).1 rfl,
   by
    have h := ((download_to_status_check ⟨true, "200 OK", 2, [[1], [2]]⟩).2 rfl).1
    simpa [copyChunks] using h,
   ((download_to_status_check ⟨true, "200 OK", 2, [[1], [2]]⟩).2 rfl).2
     (by decide)⟩

end SelfUpdate

namespace SelfUpdate

/-! ## `Extract::extract_file` (src/lib.rs lines 404-480)

The tar and zip codecs are external collaborators exposing entry listing
(`Archive::entries`, `ZipArchive::by_name`) and extraction.  A tar entry's
path may itself be unreadable (`e.path().ok()` is `None`); whole entries
may fail to parse and are skipped by `filter_map(|e| e.ok())`, modelled by
listing only the readable entries' paths.  Writing the extracted bytes is
a further fallible step, passed in as an oracle result. -/

/-- A readable tar entry: its path, `none` when `e.path()` errors. -/
structure TarEntry where
  path : Option String
  deriving Repr, DecidableEq

/-- Tar branch of `Extract::extract_file` (src/lib.rs 438-451): look for
an entry whose path equals the requested one; absent entries raise the
`Update`-kind "Could not find the required path in the archive" error
(the requested path is Debug-quoted in the message); a found entry is
unpacked, with the unpack outcome supplied by the `unpackResult`
oracle. -/
def extract_file_tar (entries : List (Option TarEntry)) (fileToExtract : String)
    (unpackResult : Except Error Unit) : Except Error Unit :=
  match (entries.filterMap id).find? (fun e => e.path == some fileToExtract) with
  | some _ => unpackResult
  | none =>
    .error (.update ("Could not find the required path in the archive: \"" ++
      fileToExtract ++ "\""))

/-- Model of `zip::ZipArchive::by_name`: resolves a stored entry by name,
failing with the zip library's `FileNotFound` error when absent. -/
def zip_by_name (entries : List String) (name : String) : Except ZipErr String :=
  if entries.contains name then .ok name else .error .fileNotFound

/-- Zip branch of `Extract::extract_file` (src/lib.rs 471-477):
`archive.by_name(...)?` propagates a missing entry as the zip library's
error converted through `From<ZipError> for Error` (src/errors.rs
116-121), i.e. the `Zip` kind; a found entry is copied out, with the copy
outcome supplied by the `copyResult` oracle. -/
def extract_file_zip (entries : List String) (fileToExtract : String)
    (copyResult : Except Error Unit) : Except Error Unit :=
  match zip_by_name entries fileToExtract with
  | .error e => .error (.zipError e)
  | .ok _ => copyResult

/-- C5 counterexample: asking the zip branch for an absent entry fails
with the `Zip`-kind error wrapping `FileNotFound`, not the `Update`-kind
error the claim names for both branches. -/
theorem extract_file_zip_kind_counterexample :
    extract_file_zip ["bin/app"] "bin/missing" (.ok ()) =
      .error (.zipError .fileNotFound) := rfl

/-- C5 amended: `extract_file`, asked for a named entry absent from the
archive, never succeeds silently — the tar branch fails with the
`Update`-kind "Could not find the required path in the archive" error,
and the zip branch fails with the `Zip`-kind error wrapping the zip
library's `FileNotFound`. -/
theorem extract_file_missing_entry
    (entries : List (Option TarEntry)) (zipEntries : List String)
    (fileToExtract : String)
    (unpackResult copyResult : Except Error Unit) :
    ((∀ e ∈ entries.filterMap id, e.path ≠ some fileToExtract) →
      extract_file_tar entries fileToExtract unpackResult =
        .error (.update ("Could not find the required path in the archive: \"" ++
          fileToExtract ++ "\""))) ∧
    (¬ fileToExtract ∈ zipEntries →
      extract_file_zip zipEntries fileToExtract copyResult =
        .error (.zipError .fileNotFound)) := by
  constructor
  · intro h
    have hfind : (entries.filterMap id).find?
        (fun e => e.path == some fileToExtract) = none := by
      rw [List.find?_eq_none]
      intro e he
      simpa using h e he
    simp [extract_file_tar, hfind]
  · intro h
    simp [extract_file_zip, zip_by_name, h]

/-- Witness for C5 at concrete archives missing the entry `app`. -/
theorem extract_file_missing_entry_witness :
    extract_file_tar [some ⟨some "other"⟩, none] "app" (.ok ()) =
      .error (.update "Could not find the required path in the archive: \"app\"") ∧
    extract_file_zip ["other"] "app" (.ok ()) = .error (.zipError .fileNotFound) :=
  ⟨(extract_file_missing_entry [some ⟨some "other"⟩, none] ["other"] "app"
      (.ok ()) (.ok ())).1 (by decide),
   (extract_file_missing_entry [some ⟨some "other"⟩, none] ["other"] "app"
      (.ok ()) (.ok ())).2 (by decide)⟩

end SelfUpdate

namespace SelfUpdate

/-! ## `detect_archive` (src/lib.rs lines 241-282)

Classification is pure filename inspection through `Path::extension` and
`Path::file_stem`.  Those are modelled on the character list of the path:
the file name is the last path component (empty and `.` components are
normalized away, a trailing `..` has no file name), and a name's extension
is what follows its last dot, except that a dot in first position alone
does not start an extension (dotfiles) and `.` / `..` have none.  Archive
support is feature-gated in the crate; the `tarEnabled` / `zipEnabled`
flags stand for the `archive-tar` / `archive-zip` features. -/

/-- Split a character list at every `/`, keeping empty pieces, as
`Path` component splitting does before normalization. -/
def splitSlash : List Char → List (List Char)
  | [] => [[]]
  | c :: cs =>
    if c = '/' then [] :: splitSlash cs
    else
      match splitSlash cs with
      | [] => [[c]]
      | h :: t => (c :: h) :: t

/-- Model of `Path::file_name`: the last component after dropping empty
and `.` components; a last component `..` has no file name. -/
def fileNameL? (cs : List Char) : Option (List Char) :=
  let comps := (splitSlash cs).filter (fun c => decide (c ≠ [] ∧ c ≠ ['.']))
  match comps.getLast? with
  | none => none
  | some c => if c = ['.', '.'] then none else some c

/-- Model of the stem/extension split of a plain file name: the extension
starts after the last dot, provided that dot is not the name's first
character; the special names `.` and `..` have neither. -/
def extSplitL (cs : List Char) : Option (List Char × List Char) :=
  if cs = ['.'] ∨ cs = ['.', '.'] then none
  else
    let r := cs.reverse
    let e := r.takeWhile (fun c => c != '.')
    if e.length = r.length then none
    else
      let stem := (r.drop (e.length + 1)).reverse
      if stem = [] then none else some (stem, e.reverse)

/-- Model of `Path::extension` on a path string. -/
def rextension (path : String) : Option String :=
  (fileNameL? path.data).bind fun f => (extSplitL f).map fun p => ⟨p.2⟩

/-- Model of `Path::file_stem` on a path string. -/
def file_stem? (path : String) : Option String :=
  (fileNameL? path.data).map fun f =>
    match extSplitL f with
    | some (st, _) => ⟨st⟩
    | none => ⟨f⟩

/-- `path.file_stem().map(Path::new).and_then(|f| f.extension())` of the
gz branch of `detect_archive`: the extension of the stem. -/
def stemExt? (path : String) : Option String :=
  (file_stem? path).bind fun st => (extSplitL st.data).map fun p => ⟨p.2⟩

/-- Mirror of the crate's `Compression` (gzip is the only variant). -/
inductive Compression where
  | gz
  deriving Repr, DecidableEq

/-- Mirror of the crate's `ArchiveKind`. -/
inductive ArchiveKind where
  | tar (c : Option Compression)
  | plain (c : Option Compression)
  | zip
  deriving Repr, DecidableEq

/-- Transcription of `detect_archive` (src/lib.rs 241-282), with the
feature gates as flags: `zip` extension is Zip, `tar` is an uncompressed
Tar, `gz` is a gzipped Tar when the stem's own extension is `tar` and a
gzipped Plain otherwise, and everything else is an uncompressed Plain. -/
def detect_archive (path : String) (tarEnabled zipEnabled : Bool) :
    Except Error ArchiveKind :=
  match rextension path with
  | some e =>
    if e = "zip" then
      if zipEnabled then .ok .zip else .error (.archiveNotEnabled "zip")
    else if e = "tar" then
      if tarEnabled then .ok (.tar none) else .error (.archiveNotEnabled "tar")
    else if e = "gz" then
      match stemExt? path with
      | some e2 =>
        if e2 = "tar" then
          if tarEnabled then .ok (.tar (some .gz))
          else .error (.archiveNotEnabled "tar")
        else .ok (.plain (some .gz))
      | none => .ok (.plain (some .gz))
    else .ok (.plain none)
  | none => .ok (.plain none)

/-- Sanity: the extension examples of the spec's test battery. -/
theorem detect_archive_examples :
    detect_archive "Something.tar.gz" true true = .ok (.tar (some .gz)) ∧
    detect_archive "Something.tar" true true = .ok (.tar none) ∧
    detect_archive "Something.zip" true true = .ok .zip ∧
    detect_archive "Something.exe.gz" true true = .ok (.plain (some .gz)) ∧
    detect_archive "Something.exe" true true = .ok (.plain none) := by
  refine ⟨rfl, rfl, rfl, rfl, rfl⟩

end SelfUpdate

deriving instance DecidableEq for Except

namespace SelfUpdate

/-- Splitting at `/` is trivial on a slash-free character list. -/
theorem splitSlash_no_slash (cs : List Char) (h : ∀ c ∈ cs, c ≠ '/') :
    splitSlash cs = [cs] := by
  induction cs with
  | nil => rfl
  | cons c cs ih =>
    have hc : c ≠ '/' := h c (by simp)
    rw [splitSlash, if_neg hc, ih (fun x hx => h x (by simp [hx]))]

/-- A slash-free name other than the special dot components is its own
file name. -/
theorem fileNameL_no_slash (cs : List Char) (h : ∀ c ∈ cs, c ≠ '/')
    (h1 : cs ≠ []) (h2 : cs ≠ ['.']) (h3 : cs ≠ ['.', '.']) :
    fileNameL? cs = some cs := by
  unfold fileNameL?
  rw [splitSlash_no_slash cs h]
  simp [h1, h2, h3]

/-- takeWhile stops exactly at the first failing element. -/
theorem takeWhile_all_append (p : Char → Bool) (l1 : List Char) (x : Char)
    (l2 : List Char) (h1 : ∀ c ∈ l1, p c = true) (hx : p x = false) :
    (l1 ++ x :: l2).takeWhile p = l1 := by
  induction l1 with
  | nil => simp [List.takeWhile, hx]
  | cons a l1 ih =>
    have ha : p a = true := h1 a (by simp)
    simp only [List.cons_append, List.takeWhile_cons, ha, if_true]
    rw [ih (fun c hc => h1 c (by simp [hc]))]

/-- The stem/extension split of `stem ++ "." ++ ext` with a nonempty stem
and a nonempty, dot-free extension. -/
theorem extSplitL_append_ext (sd w : List Char) (hsd : sd ≠ []) (hw : w ≠ [])
    (hwdot : ∀ c ∈ w, c ≠ '.') :
    extSplitL (sd ++ '.' :: w) = some (sd, w) := by
  have hsd1 : 1 ≤ sd.length := by
    cases sd with
    | nil => exact absurd rfl hsd
    | cons a l => simp
  have hw1 : 1 ≤ w.length := by
    cases w with
    | nil => exact absurd rfl hw
    | cons a l => simp
  have htake : ((sd ++ '.' :: w).reverse).takeWhile (fun c => c != '.') =
      w.reverse := by
    rw [show (sd ++ '.' :: w).reverse = w.reverse ++ '.' :: sd.reverse by simp]
    apply takeWhile_all_append
    · intro c hc
      have hcw : c ∈ w := by simpa using hc
      simpa using hwdot c hcw
    · simp
  have hdrop : ((sd ++ '.' :: w).reverse).drop (w.reverse.length + 1) =
      sd.reverse := by
    rw [show (sd ++ '.' :: w).reverse = (w.reverse ++ ['.']) ++ sd.reverse by simp]
    rw [show w.reverse.length + 1 = (w.reverse ++ ['.']).length by simp]
    exact List.drop_left _ _
  unfold extSplitL
  rw [if_neg]
  · simp only [htake]
    rw [if_neg]
    · rw [hdrop]
      simp [hsd]
    · intro hcontra
      simp at hcontra
  · rw [not_or]
    constructor
    · intro hcontra
      have hlen := congrArg List.length hcontra
      simp at hlen
      omega
    · intro hcontra
      have hlen := congrArg List.length hcontra
      simp at hlen
      omega

end SelfUpdate

namespace SelfUpdate

/-- A name of the form `stem.ext` (nonempty slash-free stem, nonempty
slash-free extension) is its own file name. -/
theorem fileNameL_suffix (sd w : List Char) (hsd : 1 ≤ sd.length)
    (hsl : ∀ c ∈ sd, c ≠ '/') (hwsl : ∀ c ∈ w, c ≠ '/') (hw : 1 ≤ w.length) :
    fileNameL? (sd ++ '.' :: w) = some (sd ++ '.' :: w) := by
  apply fileNameL_no_slash
  · intro c hc
    rcases List.mem_append.mp hc with h | h
    · exact hsl c h
    · rcases List.mem_cons.mp h with h | h
      · rw [h]; decide
      · exact hwsl c h
  · simp
  · intro hcontra
    have := congrArg List.length hcontra
    simp at this
    omega
  · intro hcontra
    have := congrArg List.length hcontra
    simp at this
    omega

/-- The `zip` branch of `detect_archive`, given the extension. -/
theorem detect_archive_zip_ext (p : String) (te ze : Bool)
    (h : rextension p = some "zip") :
    detect_archive p te ze =
      if ze then .ok .zip else .error (.archiveNotEnabled "zip") := by
  unfold detect_archive
  rw [h]
  rfl

/-- The `tar` branch of `detect_archive`, given the extension. -/
theorem detect_archive_tar_ext (p : String) (te ze : Bool)
    (h : rextension p = some "tar") :
    detect_archive p te ze =
      if te then .ok (.tar none) else .error (.archiveNotEnabled "tar") := by
  unfold detect_archive
  rw [h]
  rfl

/-- The `gz` branch of `detect_archive` when the stem's extension is
`tar`. -/
theorem detect_archive_targz_ext (p : String) (te ze : Bool)
    (h : rextension p = some "gz") (hst : stemExt? p = some "tar") :
    detect_archive p te ze =
      if te then .ok (.tar (some .gz)) else .error (.archiveNotEnabled "tar") := by
  unfold detect_archive
  rw [h]
  dsimp only
  rw [hst]
  rfl

/-- The `gz` branch of `detect_archive` when the stem's extension is not
`tar`. -/
theorem detect_archive_gz_ext (p : String) (te ze : Bool)
    (h : rextension p = some "gz")
    (hst : ∀ e2, stemExt? p = some e2 → e2 ≠ "tar") :
    detect_archive p te ze = .ok (.plain (some .gz)) := by
  unfold detect_archive
  rw [h]
  dsimp only
  cases hs : stemExt? p with
  | none => rfl
  | some e2 =>
    dsimp only
    rw [if_neg (hst e2 hs)]
    rfl

/-- Any other extension (or none at all) is an uncompressed Plain. -/
theorem detect_archive_other_ext (p : String) (te ze : Bool)
    (h1 : rextension p ≠ some "zip") (h2 : rextension p ≠ some "tar")
    (h3 : rextension p ≠ some "gz") :
    detect_archive p te ze = .ok (.plain none) := by
  unfold detect_archive
  cases hre : rextension p with
  | none => rfl
  | some e =>
    rw [hre] at h1 h2 h3
    have he1 : e ≠ "zip" := fun hc => h1 (by rw [hc])
    have he2 : e ≠ "tar" := fun hc => h2 (by rw [hc])
    have he3 : e ≠ "gz" := fun hc => h3 (by rw [hc])
    dsimp only
    rw [if_neg he1, if_neg he2, if_neg he3]

/-- C7 counterexample: the dotfile name `.tar.gz` ends in `.tar.gz` yet
classifies as Plain(gzip), not Tar(gzip): in path semantics its extension
is `gz` and its stem `.tar` has no extension of its own. -/
theorem detect_archive_dotfile_counterexample :
    (".tar.gz".data).isSuffixOf (".tar.gz" : String).data = true ∧
    detect_archive ".tar.gz" true true = .ok (.plain (some .gz)) ∧
    detect_archive ".tar.gz" true true ≠ .ok (.tar (some .gz)) := by
  refine ⟨by decide, rfl, by decide⟩

/-- C7 amended: `detect_archive` classifies purely by the filename's
extension chain in path semantics (the extension follows the last dot of
the file name, a leading dot alone starting no extension).  Whenever a
nonempty stem precedes the suffix: `.zip` maps to Zip, `.tar` to Tar(no
compression), `.tar.gz` to Tar(gzip), `.gz` with no `.tar` extension
beneath to Plain(gzip), and any path with any other extension chain to
Plain(no compression) — the corresponding archive features assumed
enabled.  Dotfile names such as `.tar.gz` fall outside the suffix rules
(that one is Plain(gzip)). -/
theorem detect_archive_extension_chain (s : String) (te ze : Bool)
    (hne : s.data ≠ []) (hsl : ∀ c ∈ s.data, c ≠ '/') :
    detect_archive (s ++ ".zip") te true = .ok .zip ∧
    detect_archive (s ++ ".tar") true ze = .ok (.tar none) ∧
    detect_archive (s ++ ".tar.gz") true ze = .ok (.tar (some .gz)) ∧
    ((∀ st e2, extSplitL s.data = some (st, e2) → (⟨e2⟩ : String) ≠ "tar") →
      detect_archive (s ++ ".gz") te ze = .ok (.plain (some .gz))) ∧
    (∀ p : String, rextension p ≠ some "zip" → rextension p ≠ some "tar" →
      rextension p ≠ some "gz" → detect_archive p te ze = .ok (.plain none)) := by
  have hsd1 : 1 ≤ s.data.length := by
    cases hd : s.data with
    | nil => exact absurd hd hne
    | cons a l => simp
  refine ⟨?_, ?_, ?_, ?_, ?_⟩
  · -- `.zip`
    have hdata : (s ++ ".zip").data = s.data ++ '.' :: ['z', 'i', 'p'] := by
      rw [String.data_append]
    have hre : rextension (s ++ ".zip") = some "zip" := by
      unfold rextension
      rw [hdata, fileNameL_suffix s.data ['z', 'i', 'p'] hsd1 hsl (by decide) (by decide)]
      dsimp only [Option.bind]
      rw [extSplitL_append_ext s.data ['z', 'i', 'p'] hne (by decide) (by decide)]
      rfl
    rw [detect_archive_zip_ext _ _ _ hre, if_pos rfl]
  · -- `.tar`
    have hdata : (s ++ ".tar").data = s.data ++ '.' :: ['t', 'a', 'r'] := by
      rw [String.data_append]
    have hre : rextension (s ++ ".tar") = some "tar" := by
      unfold rextension
      rw [hdata, fileNameL_suffix s.data ['t', 'a', 'r'] hsd1 hsl (by decide) (by decide)]
      dsimp only [Option.bind]
      rw [extSplitL_append_ext s.data ['t', 'a', 'r'] hne (by decide) (by decide)]
      rfl
    rw [detect_archive_tar_ext _ _ _ hre, if_pos rfl]
  · -- `.tar.gz`
    have hdata : (s ++ ".tar.gz").data =
        (s.data ++ '.' :: ['t', 'a', 'r']) ++ '.' :: ['g', 'z'] := by
      rw [String.data_append]
      simp
    have hstem1 : 1 ≤ (s.data ++ '.' :: ['t', 'a', 'r']).length := by simp
    have hstemsl : ∀ c ∈ s.data ++ '.' :: ['t', 'a', 'r'], c ≠ '/' := by
      intro c hc
      rcases List.mem_append.mp hc with h | h
      · exact hsl c h
      · have hc4 : c = '.' ∨ c = 't' ∨ c = 'a' ∨ c = 'r' := by simpa using h
        rcases hc4 with h | h | h | h <;> subst h <;> decide
    have hfn : fileNameL? ((s.data ++ '.' :: ['t', 'a', 'r']) ++ '.' :: ['g', 'z']) =
        some ((s.data ++ '.' :: ['t', 'a', 'r']) ++ '.' :: ['g', 'z']) :=
      fileNameL_suffix _ ['g', 'z'] hstem1 hstemsl (by decide) (by decide)
    have hext : extSplitL ((s.data ++ '.' :: ['t', 'a', 'r']) ++ '.' :: ['g', 'z']) =
        some (s.data ++ '.' :: ['t', 'a', 'r'], ['g', 'z']) :=
      extSplitL_append_ext _ ['g', 'z'] (by simp) (by decide) (by decide)
    have hext2 : extSplitL (s.data ++ '.' :: ['t', 'a', 'r']) =
        some (s.data, ['t', 'a', 'r']) :=
      extSplitL_append_ext s.data ['t', 'a', 'r'] hne (by decide) (by decide)
    have hre : rextension (s ++ ".tar.gz") = some "gz" := by
      unfold rextension
      rw [hdata, hfn]
      dsimp only [Option.bind]
      rw [hext]
      rfl
    have hstemext : stemExt? (s ++ ".tar.gz") = some "tar" := by
      unfold stemExt? file_stem?
      rw [hdata, hfn]
      dsimp only [Option.bind, Option.map]
      rw [hext]
      dsimp only
      rw [hext2]
    rw [detect_archive_targz_ext _ _ _ hre hstemext, if_pos rfl]
  · -- `.gz` without `.tar` beneath
    intro hng
    have hdata : (s ++ ".gz").data = s.data ++ '.' :: ['g', 'z'] := by
      rw [String.data_append]
    have hfn : fileNameL? (s.data ++ '.' :: ['g', 'z']) =
        some (s.data ++ '.' :: ['g', 'z']) :=
      fileNameL_suffix s.data ['g', 'z'] hsd1 hsl (by decide) (by decide)
    have hext : extSplitL (s.data ++ '.' :: ['g', 'z']) = some (s.data, ['g', 'z']) :=
      extSplitL_append_ext s.data ['g', 'z'] hne (by decide) (by decide)
    have hre : rextension (s ++ ".gz") = some "gz" := by
      unfold rextension
      rw [hdata, hfn]
      dsimp only [Option.bind]
      rw [hext]
      rfl
    have hse : stemExt? (s ++ ".gz") =
        (extSplitL s.data).map (fun pr => (⟨pr.2⟩ : String)) := by
      unfold stemExt? file_stem?
      rw [hdata, hfn]
      dsimp only [Option.bind, Option.map]
      rw [hext]
    apply detect_archive_gz_ext _ _ _ hre
    intro e2 hs2
    rw [hse] at hs2
    cases hcase : extSplitL s.data with
    | none => rw [hcase] at hs2; cases hs2
    | some pr =>
      rw [hcase] at hs2
      dsimp only [Option.map] at hs2
      have he2 : (⟨pr.2⟩ : String) = e2 := by
        simpa using hs2
      rw [← he2]
      exact hng pr.1 pr.2 (by rw [hcase])
  · -- any other extension chain
    intro p h1 h2 h3
    exact detect_archive_other_ext p te ze h1 h2 h3

/-- Witness for C7 with the concrete stem `x`: all five classifications
evaluate as the amended claim states. -/
theorem detect_archive_extension_chain_witness :
    detect_archive ("x" ++ ".zip") true true = .ok .zip ∧
    detect_archive ("x" ++ ".tar") true true = .ok (.tar none) ∧
    detect_archive ("x" ++ ".tar.gz") true true = .ok (.tar (some .gz)) ∧
    detect_archive ("x" ++ ".gz") true true = .ok (.plain (some .gz)) ∧
    detect_archive "x.exe" true true = .ok (.plain none) := by
  have h := detect_archive_extension_chain "x" true true (by decide) (by decide)
  refine ⟨h.1, h.2.1, h.2.2.1, h.2.2.2.1 ?_, h.2.2.2.2 "x.exe" (by decide) (by decide)
    (by decide)⟩
  intro st e2 hcase
  rw [show extSplitL ("x" : String).data = none from rfl] at hcase
  cases hcase

end SelfUpdate

namespace SelfUpdate

/-! ## `Release`, `ReleaseAsset` and `Release::asset_for` (src/update.rs)

Releases and their assets as parsed from a backend. -/

/-- Mirror of `ReleaseAsset` (src/update.rs 8-12). -/
structure ReleaseAsset where
  download_url : String
  name : String
  deriving Repr, DecidableEq

/-- Mirror of `Release` (src/update.rs 43-50). -/
structure Release where
  name : String
  version : String
  date : String
  body : Option String
  assets : List ReleaseAsset
  deriving Repr, DecidableEq

/-- `Release::default()`: every field empty. -/
def releaseDefault : Release := ⟨"", "", "", none, []⟩

/-- Rust `str::contains` with a string pattern: substring occurrence. -/
def containsStr (s pat : String) : Bool :=
  (List.range (s.data.length + 1)).any
    (fun i => pat.data.isPrefixOf (s.data.drop i))

/-- The predicate of the `find` closure inside `Release::asset_for`: the
asset's name contains the target and, when an identifier is configured,
also the identifier. -/
def assetMatches (asset : ReleaseAsset) (target : String)
    (idf : Option String) : Bool :=
  containsStr asset.name target &&
    match idf with
    | some i => containsStr asset.name i
    | none => true

/-- Transcription of `Release::asset_for` (src/update.rs 60-72): the
first matching asset in the backend's listing order, if any. -/
def Release.asset_for (r : Release) (target : String) (idf : Option String) :
    Option ReleaseAsset :=
  r.assets.find? (fun asset => assetMatches asset target idf)

/-! ## `ReleaseUpdate::update_extended` and `update` (src/update.rs 143-281)

The trait object's capabilities (backend queries, version comparison,
the confirmation prompt, the temp-dir/file creation, download, extraction
and the final self-replace) are supplied by an environment of oracles;
`version.rs` itself is not among the sources, so the version comparison
enters only through its result.  The run returns the `Result` together
with the trace of filesystem/network side effects it performed, in
order. -/

/-- Observable side effects of one `update_extended` run. -/
inductive Effect where
  | createTempDir
  | createFile (path : String)
  | download (url : String)
  | extract (archive : String) (binPath : String)
  | replaceBin (installPath : String)
  deriving Repr, DecidableEq

/-- The accessor values of the `ReleaseUpdate` implementor (the builder
result): only fields `update_extended` consults are modelled. -/
structure UpdateConfig where
  current_version : String
  target : String
  identifier : Option String
  target_version : Option String
  bin_name : String
  bin_install_path : String
  bin_path_in_archive : String
  show_output : Bool
  no_confirm : Bool

/-- Oracle results for the external calls `update_extended` makes, in
the order it makes them. -/
structure UpdateEnv where
  getLatestRelease : Except Error Release
  getReleaseVersion : String → Except Error Release
  bumpIsGreater : String → String → Except Error Bool
  bumpIsCompatible : String → String → Except Error Bool
  confirmAnswer : Except Error Unit
  tempDirNew : Except Error String
  createFile : String → Except Error Unit
  downloadTo : String → Except Error Unit
  extractFile : String → String → Except Error Unit
  selfReplace : Except Error Unit

/-- Mirror of `UpdateStatus` (src/update.rs 15-20). -/
inductive UpdateStatus where
  | upToDate
  | updated (release : Release)
  deriving Repr, DecidableEq

/-- Mirror of `Status` (src/lib.rs 184-188). -/
inductive Status where
  | upToDate (version : String)
  | updated (version : String)
  deriving Repr, DecidableEq

/-- Transcription of `UpdateStatus::into_status` (src/update.rs 24-29). -/
def UpdateStatus.into_status : UpdateStatus → String → Status
  | .upToDate, current => .upToDate current
  | .updated r, _ => .updated r.version

/-- The part of `update_extended` after the release is resolved
(src/update.rs 202-280): select the asset, confirm unless `no_confirm`,
create the temp dir and temp file, download, extract, and self-replace.
Console printing is not an effect of the trace.  Each successful external
call appends its effect. -/
def update_extended_tail (cfg : UpdateConfig) (env : UpdateEnv)
    (release : Release) : Except Error UpdateStatus × List Effect :=
  match release.asset_for cfg.target cfg.identifier with
  | none =>
    (.error (.release ("No asset found for target: `" ++ cfg.target ++ "`")), [])
  | some targetAsset =>
    match (if cfg.no_confirm then .ok () else env.confirmAnswer) with
    | .error e => (.error e, [])
    | .ok _ =>
      match env.tempDirNew with
      | .error e => (.error e, [])
      | .ok tmpDir =>
        let tr1 := [Effect.createTempDir]
        let tmpArchivePath := tmpDir ++ "/" ++ targetAsset.name
        match env.createFile tmpArchivePath with
        | .error e => (.error e, tr1)
        | .ok _ =>
          let tr2 := tr1 ++ [Effect.createFile tmpArchivePath]
          match env.downloadTo targetAsset.download_url with
          | .error e => (.error e, tr2)
          | .ok _ =>
            let tr3 := tr2 ++ [Effect.download targetAsset.download_url]
            match env.extractFile tmpArchivePath cfg.bin_path_in_archive with
            | .error e => (.error e, tr3)
            | .ok _ =>
              let tr4 := tr3 ++ [Effect.extract tmpArchivePath cfg.bin_path_in_archive]
              match env.selfReplace with
              | .error e => (.error e, tr4)
              | .ok _ =>
                (.ok (.updated release), tr4 ++ [Effect.replaceBin cfg.bin_install_path])

/-- Transcription of `update_extended` (src/update.rs 152-280): resolve
the release — the configured target version tag, or else the latest
release short-circuiting to `UpToDate` when the latest version is not a
strict bump over the current one — then run the tail. -/
def update_extended (cfg : UpdateConfig) (env : UpdateEnv) :
    Except Error UpdateStatus × List Effect :=
  match cfg.target_version with
  | none =>
    match env.getLatestRelease with
    | .error e => (.error e, [])
    | .ok release =>
      match env.bumpIsGreater cfg.current_version release.version with
      | .error e => (.error e, [])
      | .ok false => (.ok .upToDate, [])
      | .ok true =>
        match env.bumpIsCompatible cfg.current_version release.version with
        | .error e => (.error e, [])
        | .ok _ => update_extended_tail cfg env release
  | some ver =>
    match env.getReleaseVersion ver with
    | .error e => (.error e, [])
    | .ok release => update_extended_tail cfg env release

/-- Transcription of `update` (src/update.rs 145-149): run
`update_extended` and map the status through `into_status` with the
current version. -/
def update (cfg : UpdateConfig) (env : UpdateEnv) :
    Except Error Status × List Effect :=
  ((update_extended cfg env).1.map
    (fun s => s.into_status cfg.current_version),
   (update_extended cfg env).2)

end SelfUpdate

namespace SelfUpdate

/-- C2: with no target version tag configured, when the latest release's
version is not a strict bump over the current version, `update` returns
`UpToDate` carrying the current version and the effect trace is empty —
no temp dir, no temp file, no download, no extraction, no replacement. -/
theorem update_uptodate_no_effects (cfg : UpdateConfig) (env : UpdateEnv)
    (release : Release)
    (h1 : cfg.target_version = none)
    (h2 : env.getLatestRelease = .ok release)
    (h3 : env.bumpIsGreater cfg.current_version release.version = .ok false) :
    update cfg env = (.ok (.upToDate cfg.current_version), []) := by
  unfold update update_extended
  rw [h1]
  dsimp only
  rw [h2]
  dsimp only
  rw [h3]
  rfl

/-- Release used by the C2 and C6 witnesses. -/
def relW : Release := ⟨"app", "1.2.0", "2020-01-01", none, []⟩

/-- Environment used by the C2 witness: latest release is `relW` and the
version comparison reports no strict bump. -/
def envW : UpdateEnv :=
  { getLatestRelease := .ok relW
    getReleaseVersion := fun _ => .error (.release "untouched")
    bumpIsGreater := fun _ _ => .ok false
    bumpIsCompatible := fun _ _ => .ok true
    confirmAnswer := .ok ()
    tempDirNew := .ok "/tmp/t"
    createFile := fun _ => .ok ()
    downloadTo := fun _ => .ok ()
    extractFile := fun _ _ => .ok ()
    selfReplace := .ok () }

/-- Configuration used by the C2 witness. -/
def cfgW : UpdateConfig :=
  ⟨"1.2.0", "x86_64-unknown-linux-gnu", none, none, "app", "/usr/bin/app",
   "app", true, false⟩

/-- Witness for C2: current version `1.2.0`, latest release version
`1.2.0`, `update()` returns `UpToDate("1.2.0")` with an empty effect
trace. -/
theorem update_uptodate_no_effects_witness :
    update cfgW envW = (.ok (.upToDate "1.2.0"), []) :=
  update_uptodate_no_effects cfgW envW relW rfl rfl rfl

end SelfUpdate

namespace SelfUpdate

/-- A `find?` returns the head of the filtered list: the first match in
order. -/
theorem find?_eq_head_filter {α : Type} (p : α → Bool) (l : List α) :
    l.find? p = (l.filter p).head? := by
  induction l with
  | nil => rfl
  | cons a l ih =>
    by_cases h : p a
    · rw [List.find?_cons_of_pos _ h, List.filter_cons_of_pos h]
      rfl
    · rw [List.find?_cons_of_neg _ h, List.filter_cons_of_neg h, ih]

/-- C6: `Release::asset_for` returns the first asset, in the backend's
listing order, whose name contains the target string and — when an
identifier is configured — also the identifier substring; it returns
`none` exactly when no asset matches, and `update()` then fails with the
`Release`-kind "No asset found for target" error (and performs no side
effects). -/
theorem asset_for_first_match (r : Release) (target : String)
    (idf : Option String) (cfg : UpdateConfig) (env : UpdateEnv)
    (release : Release) :
    (r.asset_for target idf =
      (r.assets.filter (fun a => assetMatches a target idf)).head?) ∧
    (r.asset_for target idf = none ↔
      ∀ a ∈ r.assets, assetMatches a target idf = false) ∧
    (cfg.target_version = none →
      env.getLatestRelease = .ok release →
      env.bumpIsGreater cfg.current_version release.version = .ok true →
      (∃ b, env.bumpIsCompatible cfg.current_version release.version = .ok b) →
      release.asset_for cfg.target cfg.identifier = none →
      update cfg env =
        (.error (.release ("No asset found for target: `" ++ cfg.target ++ "`")),
         [])) := by
  refine ⟨?_, ?_, ?_⟩
  · exact find?_eq_head_filter _ r.assets
  · unfold Release.asset_for
    rw [List.find?_eq_none]
    constructor
    · intro h a ha
      simpa using h a ha
    · intro h a ha
      simp [h a ha]
  · intro h1 h2 h3 h4 h5
    obtain ⟨b, hb⟩ := h4
    unfold update update_extended
    rw [h1]
    dsimp only
    rw [h2]
    dsimp only
    rw [h3]
    dsimp only
    rw [hb]
    dsimp only
    unfold update_extended_tail
    rw [h5]
    rfl

/-- First asset of the C6 witness release (matches the Linux target). -/
def assetLinux : ReleaseAsset :=
  ⟨"https://example/app-linux", "app-x86_64-unknown-linux-gnu.tar.gz"⟩

/-- Second asset of the C6 witness release. -/
def assetMac : ReleaseAsset :=
  ⟨"https://example/app-mac", "app-aarch64-apple-darwin.tar.gz"⟩

/-- Release used by the C6 witness. -/
def relW6 : Release := ⟨"app", "2.0.0", "2020-02-02", none, [assetLinux, assetMac]⟩

/-- Configuration used by the C6 witness: its target matches no asset. -/
def cfgW6 : UpdateConfig :=
  ⟨"1.2.0", "missing-target", none, none, "app", "/usr/bin/app", "app",
   true, false⟩

/-- Environment used by the C6 witness: latest is `relW6`, strict bump. -/
def envW6 : UpdateEnv :=
  { envW with getLatestRelease := .ok relW6, bumpIsGreater := fun _ _ => .ok true }

/-- Witness for C6: the Linux target selects the first asset, a
non-matching target selects none, and `update()` with the non-matching
target fails with the `Release`-kind error and no side effects. -/
theorem asset_for_first_match_witness :
    relW6.asset_for "x86_64-unknown-linux-gnu" none = some assetLinux ∧
    relW6.asset_for "missing-target" none = none ∧
    update cfgW6 envW6 =
      (.error (.release "No asset found for target: `missing-target`"), []) := by
  refine ⟨?_, ?_, ?_⟩
  · exact (asset_for_first_match relW6 "x86_64-unknown-linux-gnu" none cfgW6 envW6
      relW6).1.trans (by decide)
  · exact (asset_for_first_match relW6 "missing-target" none cfgW6 envW6
      relW6).2.1.mpr (by decide)
  · exact (asset_for_first_match relW6 "missing-target" none cfgW6 envW6 relW6).2.2
      rfl rfl rfl ⟨true, rfl⟩ (by decide)

end SelfUpdate

namespace SelfUpdate

/-! ## The version comparator and the S3 `get_latest_release`
(src/backends/s3.rs 362-384)

`src/lib.rs` declares `pub mod version;` but the module's source is not
part of this tree; `bump_is_greater` is therefore modelled from the spec
(§4.1): parse both strings as semantic versions — semver 2.0.0:
`major.minor.patch` with numeric components carrying no leading zeros,
an optional hyphen-separated pre-release part of dot-separated
identifiers, an optional plus-separated build-metadata part — fail with
a version-parse error if either is invalid, and report whether `latest`
has strictly greater semver precedence. -/

/-- Split a character list at every dot, keeping empty pieces. -/
def splitDots : List Char → List (List Char)
  | [] => [[]]
  | c :: cs =>
    if c = '.' then [] :: splitDots cs
    else
      match splitDots cs with
      | [] => [[c]]
      | h :: t => (c :: h) :: t

/-- Split a character list at the first occurrence of `sep`; the second
component records whether the separator occurred and what followed it. -/
def splitFirst (sep : Char) : List Char → List Char × Option (List Char)
  | [] => ([], none)
  | c :: cs =>
    if c = sep then ([], some cs)
    else
      let p := splitFirst sep cs
      (c :: p.1, p.2)

/-- Modelled from the spec: one pre-release identifier of a semantic
version, numeric or alphanumeric. -/
inductive PreId where
  | num (n : Nat)
  | alpha (s : List Char)
  deriving Repr, DecidableEq

/-- Modelled from the spec: a parsed semantic version — the numeric
triple plus the pre-release identifiers (empty for a plain release).
Build metadata is validated by the parser and then dropped, since
semver precedence ignores it. -/
structure SemVer where
  major : Nat
  minor : Nat
  patch : Nat
  pre : List PreId
  deriving Repr, DecidableEq

/-- Numeric value of a digit list, most significant digit first. -/
def digitsVal (cs : List Char) : Nat :=
  cs.foldl (fun n c => n * 10 + (c.toNat - '0'.toNat)) 0

/-- A semver numeric identifier: nonempty, all digits, and without a
leading zero unless it is exactly `0`. -/
def parseNumIdent? (cs : List Char) : Option Nat :=
  if cs ≠ [] ∧ cs.all Char.isDigit ∧ (cs = ['0'] ∨ cs.head? ≠ some '0') then
    some (digitsVal cs)
  else none

/-- Characters admitted in pre-release and build identifiers. -/
def isIdentChar (c : Char) : Bool :=
  c.isDigit || c.isAlpha || c == '-'

/-- One pre-release identifier: numeric (without leading zeros) when it
is all digits, otherwise alphanumeric over `[0-9A-Za-z-]`; the empty
identifier is invalid. -/
def parsePreId? (cs : List Char) : Option PreId :=
  if cs.isEmpty then none
  else if cs.all Char.isDigit then
    match parseNumIdent? cs with
    | some n => some (.num n)
    | none => none
  else if cs.all isIdentChar then some (.alpha cs)
  else none

/-- The dot-separated pre-release identifiers, all of which must be
valid. -/
def parsePre? (cs : List Char) : Option (List PreId) :=
  (splitDots cs).foldr
    (fun id acc =>
      match parsePreId? id, acc with
      | some i, some l => some (i :: l)
      | _, _ => none)
    (some [])

/-- Build metadata: dot-separated nonempty identifiers over
`[0-9A-Za-z-]`. -/
def validBuild (cs : List Char) : Bool :=
  (splitDots cs).all (fun id => !id.isEmpty && id.all isIdentChar)

/-- Modelled from the spec: semantic-version parsing as used by the
crate's `version` module (whose source is not in this tree), following
semver 2.0.0: `major.minor.patch` with numeric components carrying no
leading zeros, then an optional `-`-separated pre-release part and an
optional `+`-separated build-metadata part; anything else fails. -/
def parseSemVer (s : String) : Option SemVer :=
  let pb := splitFirst '+' s.data
  let okBuild :=
    match pb.2 with
    | none => true
    | some b => validBuild b
  if okBuild then
    let pp := splitFirst '-' pb.1
    match splitDots pp.1 with
    | [ma, mi, pa] =>
      match parseNumIdent? ma, parseNumIdent? mi, parseNumIdent? pa with
      | some x, some y, some z =>
        match pp.2 with
        | none => some ⟨x, y, z, []⟩
        | some pr =>
          match parsePre? pr with
          | some ids => some ⟨x, y, z, ids⟩
          | none => none
      | _, _, _ => none
    | _ => none
  else none

/-- Ordering of naturals as a three-way comparison. -/
def cmpN (a b : Nat) : Ordering :=
  if a < b then .lt else if b < a then .gt else .eq

/-- Ordering of characters by code point as a three-way comparison. -/
def cmpC (a b : Char) : Ordering :=
  if a < b then .lt else if b < a then .gt else .eq

/-- Lexicographic comparison of lists by an element comparator; a
strict prefix is smaller. -/
def cmpLex {τ : Type} (c : τ → τ → Ordering) : List τ → List τ → Ordering
  | [], [] => .eq
  | [], _ :: _ => .lt
  | _ :: _, [] => .gt
  | a :: as, b :: bs =>
    match c a b with
    | .eq => cmpLex c as bs
    | o => o

/-- Modelled from the spec: semver precedence of single pre-release
identifiers — numeric below alphanumeric, numeric by value,
alphanumeric in ASCII order. -/
def cmpPreId : PreId → PreId → Ordering
  | .num a, .num b => cmpN a b
  | .num _, .alpha _ => .lt
  | .alpha _, .num _ => .gt
  | .alpha a, .alpha b => cmpLex cmpC a b

/-- Modelled from the spec: semver precedence of pre-release parts — a
version without pre-release identifiers is above every pre-release of
the same triple; two pre-release parts compare lexicographically, a
strict prefix being smaller. -/
def cmpPre : List PreId → List PreId → Ordering
  | [], [] => .eq
  | [], _ :: _ => .gt
  | _ :: _, [] => .lt
  | a :: as, b :: bs => cmpLex cmpPreId (a :: as) (b :: bs)

/-- Modelled from the spec: semver precedence — the numeric triple
lexicographically, then the pre-release part. -/
def cmpSemVer (a b : SemVer) : Ordering :=
  if a.major < b.major then .lt else if b.major < a.major then .gt
  else if a.minor < b.minor then .lt else if b.minor < a.minor then .gt
  else if a.patch < b.patch then .lt else if b.patch < a.patch then .gt
  else cmpPre a.pre b.pre

/-- Strict semver precedence as a boolean. -/
def vLt (a b : SemVer) : Bool :=
  decide (cmpSemVer a b = .lt)

/-- Modelled from the spec: `version::bump_is_greater(current, latest)`
fails with the version-parse error when either string is invalid and
otherwise reports whether `latest` is strictly greater than `current`. -/
def bump_is_greater (current latest : String) : Except Error Bool :=
  match parseSemVer latest, parseSemVer current with
  | some l, some c => .ok (vLt c l)
  | _, _ => .error (.semVer "unparsable version")

/-- Rust `cmp::max_by`: the second argument wins unless the comparison
says the first is greater. -/
def rustMaxBy2 {α : Type} (cmp : α → α → Ordering) (v1 v2 : α) : α :=
  match cmp v1 v2 with
  | .gt => v1
  | _ => v2

/-- Rust `Iterator::max_by`, implemented by `reduce` with `cmp::max_by`. -/
def rustMaxBy {α : Type} (cmp : α → α → Ordering) : List α → Option α
  | [] => none
  | x :: xs => some (xs.foldl (rustMaxBy2 cmp) x)

/-- The comparator closure of the S3 `get_latest_release`
(src/backends/s3.rs 366-378): `bump_is_greater(&y.version, &x.version)`
mapped to `Greater` on a strict bump and `Less` otherwise — a
version-parse failure is also `Less` and aborts nothing. -/
def s3Cmp (x y : Release) : Ordering :=
  match bump_is_greater y.version x.version with
  | .ok true => .gt
  | .ok false => .lt
  | .error _ => .lt

/-- Transcription of the S3 `get_latest_release` (src/backends/s3.rs
362-384), given the listing `fetch_releases_from_s3` produced. -/
def get_latest_release (releases : List Release) : Except Error Release :=
  match rustMaxBy s3Cmp releases with
  | some r => .ok r
  | none => .error (.release "No release was found")

/-- Sanity checks of the parser on concrete version strings. -/
theorem parseSemVer_examples :
    parseSemVer "1.2.0" = some ⟨1, 2, 0, []⟩ ∧
    parseSemVer "1.01.0" = none ∧
    parseSemVer "0.10.3" = some ⟨0, 10, 3, []⟩ ∧
    parseSemVer "1.0.0-beta" = some ⟨1, 0, 0, [.alpha ['b', 'e', 't', 'a']]⟩ ∧
    parseSemVer "1.0.0-alpha.1" =
      some ⟨1, 0, 0, [.alpha ['a', 'l', 'p', 'h', 'a'], .num 1]⟩ ∧
    parseSemVer "1.0.0-01" = none ∧
    parseSemVer "1.0.0-" = none ∧
    parseSemVer "1.0.0+build.01" = some ⟨1, 0, 0, []⟩ ∧
    parseSemVer "1.0.0+" = none ∧
    parseSemVer "not-a-version" = none ∧
    parseSemVer "1.0" = none ∧
    parseSemVer "1.0.0.0" = none := by
  refine ⟨rfl, rfl, rfl, rfl, rfl, rfl, rfl, rfl, rfl, rfl, rfl, rfl⟩

/-- Sanity checks of semver precedence on concrete versions. -/
theorem vLt_examples :
    vLt ⟨1, 0, 0, [.alpha ['b', 'e', 't', 'a']]⟩ ⟨1, 0, 0, []⟩ = true ∧
    vLt ⟨1, 0, 0, [.num 1]⟩ ⟨1, 0, 0, [.alpha ['a']]⟩ = true ∧
    vLt ⟨1, 0, 0, [.alpha ['a']]⟩ ⟨1, 0, 0, [.alpha ['a'], .num 1]⟩ = true ∧
    vLt ⟨1, 9, 0, []⟩ ⟨1, 10, 0, []⟩ = true ∧
    vLt ⟨1, 0, 0, []⟩ ⟨1, 0, 0, [.alpha ['a']]⟩ = false := by
  refine ⟨by decide, by decide, by decide, by decide, by decide⟩

/-- `cmp::max_by` returns one of its two arguments. -/
theorem rustMaxBy2_eq_or {α : Type} (cmp : α → α → Ordering) (a b : α) :
    rustMaxBy2 cmp a b = a ∨ rustMaxBy2 cmp a b = b := by
  unfold rustMaxBy2
  cases cmp a b <;> simp

/-- The `max_by` fold stays within the listing. -/
theorem foldl_rustMaxBy2_mem {α : Type} (cmp : α → α → Ordering)
    (xs : List α) (x : α) :
    xs.foldl (rustMaxBy2 cmp) x = x ∨ xs.foldl (rustMaxBy2 cmp) x ∈ xs := by
  induction xs generalizing x with
  | nil => simp
  | cons y ys ih =>
    simp only [List.foldl_cons]
    rcases ih (rustMaxBy2 cmp x y) with h | h
    · rcases rustMaxBy2_eq_or cmp x y with h2 | h2
      · left; rw [h, h2]
      · right; rw [h, h2]; simp
    · right; simp [h]

/-- Natural comparison reports `lt` exactly on smaller inputs. -/
theorem cmpN_lt_iff (a b : Nat) : cmpN a b = .lt ↔ a < b := by
  unfold cmpN
  split_ifs with h1 h2 <;> simp [h1]

/-- Natural comparison reports `gt` exactly on larger inputs. -/
theorem cmpN_gt_iff (a b : Nat) : cmpN a b = .gt ↔ b < a := by
  unfold cmpN
  split_ifs with h1 h2 <;> simp <;> omega

/-- Natural comparison reports `eq` exactly on equal inputs. -/
theorem cmpN_eq_iff (a b : Nat) : cmpN a b = .eq ↔ a = b := by
  unfold cmpN
  split_ifs with h1 h2 <;> simp <;> omega

/-- Character comparison reports `lt` exactly on smaller inputs. -/
theorem cmpC_lt_iff (a b : Char) : cmpC a b = .lt ↔ a < b := by
  unfold cmpC
  split_ifs with h1 h2 <;> simp [h1]

/-- Character comparison reports `gt` exactly on larger inputs. -/
theorem cmpC_gt_iff (a b : Char) : cmpC a b = .gt ↔ b < a := by
  unfold cmpC
  split_ifs with h1 h2
  · simp
    exact le_of_lt h1
  · simp [h2]
  · simp [h2]

/-- Character comparison reports `eq` exactly on equal inputs. -/
theorem cmpC_eq_iff (a b : Char) : cmpC a b = .eq ↔ a = b := by
  unfold cmpC
  split_ifs with h1 h2
  · simp
    exact ne_of_lt h1
  · simp
    exact (ne_of_lt h2).symm
  · simp
    exact le_antisymm (le_of_not_lt h2) (le_of_not_lt h1)

/-- Lexicographic comparison is reflexive when the element comparator
is. -/
theorem cmpLex_refl {τ : Type} {c : τ → τ → Ordering}
    (hrefl : ∀ a, c a a = .eq) (l : List τ) : cmpLex c l l = .eq := by
  induction l with
  | nil => rfl
  | cons a l ih =>
    unfold cmpLex
    rw [hrefl a]
    exact ih

/-- Lexicographic `eq` forces equal lists when the element comparator's
`eq` forces equal elements. -/
theorem cmpLex_eq_imp {τ : Type} {c : τ → τ → Ordering}
    (heq : ∀ a b, c a b = .eq → a = b) :
    ∀ l1 l2, cmpLex c l1 l2 = .eq → l1 = l2 := by
  intro l1
  induction l1 with
  | nil =>
    intro l2 h
    cases l2 with
    | nil => rfl
    | cons b bs => simp [cmpLex] at h
  | cons a as ih =>
    intro l2 h
    cases l2 with
    | nil => simp [cmpLex] at h
    | cons b bs =>
      unfold cmpLex at h
      cases hab : c a b with
      | eq =>
        rw [hab] at h
        rw [heq a b hab, ih bs h]
      | lt => rw [hab] at h; simp at h
      | gt => rw [hab] at h; simp at h

/-- Lexicographic `gt` is the flipped `lt` when the element comparator
flips likewise and its `eq` is symmetric. -/
theorem cmpLex_gt_iff {τ : Type} {c : τ → τ → Ordering}
    (hflip : ∀ a b, c a b = .gt ↔ c b a = .lt)
    (heqs : ∀ a b, c a b = .eq → c b a = .eq) :
    ∀ l1 l2, cmpLex c l1 l2 = .gt ↔ cmpLex c l2 l1 = .lt := by
  intro l1
  induction l1 with
  | nil =>
    intro l2
    cases l2 with
    | nil => simp [cmpLex]
    | cons b bs => simp [cmpLex]
  | cons a as ih =>
    intro l2
    cases l2 with
    | nil => simp [cmpLex]
    | cons b bs =>
      unfold cmpLex
      cases hab : c a b with
      | eq =>
        rw [heqs a b hab]
        exact ih bs
      | lt =>
        rw [(hflip b a).mpr hab]
        simp
      | gt =>
        rw [(hflip a b).mp hab]
        simp

/-- Lexicographic `lt` is transitive when the element comparator's is
and its `eq` forces equal elements. -/
theorem cmpLex_lt_trans {τ : Type} {c : τ → τ → Ordering}
    (heq : ∀ a b, c a b = .eq → a = b)
    (htr : ∀ a b d, c a b = .lt → c b d = .lt → c a d = .lt) :
    ∀ l1 l2 l3, cmpLex c l1 l2 = .lt → cmpLex c l2 l3 = .lt →
      cmpLex c l1 l3 = .lt := by
  intro l1
  induction l1 with
  | nil =>
    intro l2 l3 h1 h2
    cases l2 with
    | nil => simp [cmpLex] at h1
    | cons b bs =>
      cases l3 with
      | nil => simp [cmpLex] at h2
      | cons d ds => simp [cmpLex]
  | cons a as ih =>
    intro l2 l3 h1 h2
    cases l2 with
    | nil => simp [cmpLex] at h1
    | cons b bs =>
      cases l3 with
      | nil => simp [cmpLex] at h2
      | cons d ds =>
        unfold cmpLex at h1 h2 ⊢
        cases hab : c a b with
        | lt =>
          cases hbd : c b d with
          | lt => rw [htr a b d hab hbd]
          | eq =>
            have hbd2 : b = d := heq b d hbd
            subst hbd2
            rw [hab]
          | gt => rw [hbd] at h2; simp at h2
        | eq =>
          have hab2 : a = b := heq a b hab
          rw [hab] at h1
          rw [hab2]
          cases hbd : c b d with
          | lt => rfl
          | eq =>
            rw [hbd] at h2
            exact ih bs ds h1 h2
          | gt => rw [hbd] at h2; simp at h2
        | gt => rw [hab] at h1; simp at h1

/-- Pre-release identifier comparison is reflexive. -/
theorem cmpPreId_refl (a : PreId) : cmpPreId a a = .eq := by
  cases a with
  | num n => simp [cmpPreId, cmpN]
  | alpha s => exact cmpLex_refl (fun x => by simp [cmpC]) s

/-- Pre-release identifier `eq` forces equal identifiers. -/
theorem cmpPreId_eq_imp (a b : PreId) (h : cmpPreId a b = .eq) : a = b := by
  cases a <;> cases b <;> simp [cmpPreId] at h ⊢
  · exact (cmpN_eq_iff _ _).mp h
  · exact cmpLex_eq_imp (fun x y hxy => (cmpC_eq_iff x y).mp hxy) _ _ h

/-- Pre-release identifier `eq` is symmetric. -/
theorem cmpPreId_eqs (a b : PreId) (h : cmpPreId a b = .eq) :
    cmpPreId b a = .eq := by
  rw [cmpPreId_eq_imp a b h]
  exact cmpPreId_refl b

/-- Pre-release identifier `gt` is the flipped `lt`. -/
theorem cmpPreId_gt_iff (a b : PreId) :
    cmpPreId a b = .gt ↔ cmpPreId b a = .lt := by
  cases a <;> cases b <;> simp [cmpPreId]
  · rw [cmpN_gt_iff, cmpN_lt_iff]
  · exact cmpLex_gt_iff
      (fun x y => by rw [cmpC_gt_iff, cmpC_lt_iff])
      (fun x y hxy => by rw [(cmpC_eq_iff x y).mp hxy]; simp [cmpC]) _ _

/-- Pre-release identifier `lt` is transitive. -/
theorem cmpPreId_lt_trans (a b d : PreId)
    (h1 : cmpPreId a b = .lt) (h2 : cmpPreId b d = .lt) :
    cmpPreId a d = .lt := by
  cases a <;> cases b <;> cases d <;> simp [cmpPreId] at h1 h2 ⊢
  · rw [cmpN_lt_iff] at h1 h2 ⊢
    omega
  · exact cmpLex_lt_trans
      (fun x y hxy => (cmpC_eq_iff x y).mp hxy)
      (fun x y z hxy hyz =>
        (cmpC_lt_iff x z).mpr
          (lt_trans ((cmpC_lt_iff x y).mp hxy) ((cmpC_lt_iff y z).mp hyz)))
      _ _ _ h1 h2

/-- Pre-release part comparison is reflexive. -/
theorem cmpPre_refl (p : List PreId) : cmpPre p p = .eq := by
  cases p with
  | nil => rfl
  | cons a as => exact cmpLex_refl cmpPreId_refl (a :: as)

/-- Pre-release part `eq` forces equal parts. -/
theorem cmpPre_eq_imp (p q : List PreId) (h : cmpPre p q = .eq) : p = q := by
  cases p with
  | nil =>
    cases q with
    | nil => rfl
    | cons b bs => simp [cmpPre] at h
  | cons a as =>
    cases q with
    | nil => simp [cmpPre] at h
    | cons b bs =>
      have h2 : cmpLex cmpPreId (a :: as) (b :: bs) = .eq := h
      exact cmpLex_eq_imp cmpPreId_eq_imp _ _ h2

/-- Pre-release part `gt` is the flipped `lt`. -/
theorem cmpPre_gt_iff (p q : List PreId) :
    cmpPre p q = .gt ↔ cmpPre q p = .lt := by
  cases p <;> cases q <;> simp [cmpPre]
  exact cmpLex_gt_iff cmpPreId_gt_iff cmpPreId_eqs _ _

/-- Pre-release part `lt` is transitive. -/
theorem cmpPre_lt_trans (p q r : List PreId)
    (h1 : cmpPre p q = .lt) (h2 : cmpPre q r = .lt) : cmpPre p r = .lt := by
  cases p <;> cases q <;> cases r <;> simp [cmpPre] at h1 h2 ⊢
  exact cmpLex_lt_trans cmpPreId_eq_imp cmpPreId_lt_trans _ _ _ h1 h2

/-- Characterization of semver `lt`: the triple order first, then the
pre-release comparison. -/
theorem cmpSemVer_lt_char (a b : SemVer) :
    cmpSemVer a b = .lt ↔
      ((a.major < b.major ∨ (a.major = b.major ∧ (a.minor < b.minor ∨
        (a.minor = b.minor ∧ a.patch < b.patch)))) ∨
       (a.major = b.major ∧ a.minor = b.minor ∧ a.patch = b.patch ∧
        cmpPre a.pre b.pre = .lt)) := by
  unfold cmpSemVer
  cases ho : cmpPre a.pre b.pre <;> split_ifs <;> simp_all <;> omega

/-- Characterization of semver `gt`. -/
theorem cmpSemVer_gt_char (a b : SemVer) :
    cmpSemVer a b = .gt ↔
      ((b.major < a.major ∨ (a.major = b.major ∧ (b.minor < a.minor ∨
        (a.minor = b.minor ∧ b.patch < a.patch)))) ∨
       (a.major = b.major ∧ a.minor = b.minor ∧ a.patch = b.patch ∧
        cmpPre a.pre b.pre = .gt)) := by
  unfold cmpSemVer
  cases ho : cmpPre a.pre b.pre <;> split_ifs <;> simp_all <;> omega

/-- Characterization of semver `eq`. -/
theorem cmpSemVer_eq_char (a b : SemVer) :
    cmpSemVer a b = .eq ↔
      (a.major = b.major ∧ a.minor = b.minor ∧ a.patch = b.patch ∧
        cmpPre a.pre b.pre = .eq) := by
  unfold cmpSemVer
  cases ho : cmpPre a.pre b.pre <;> split_ifs <;> simp_all <;> omega

/-- Semver comparison is reflexive. -/
theorem cmpSemVer_refl (a : SemVer) : cmpSemVer a a = .eq := by
  rw [cmpSemVer_eq_char]
  exact ⟨rfl, rfl, rfl, cmpPre_refl a.pre⟩

/-- Semver `eq` forces equal versions. -/
theorem cmpSemVer_eq_imp (a b : SemVer) (h : cmpSemVer a b = .eq) :
    a = b := by
  rw [cmpSemVer_eq_char] at h
  obtain ⟨h1, h2, h3, h4⟩ := h
  cases a
  cases b
  simp_all
  exact cmpPre_eq_imp _ _ h4

/-- Semver `gt` is the flipped `lt`. -/
theorem cmpSemVer_gt_iff (a b : SemVer) :
    cmpSemVer a b = .gt ↔ cmpSemVer b a = .lt := by
  rw [cmpSemVer_gt_char, cmpSemVer_lt_char]
  constructor
  · rintro (h | ⟨e1, e2, e3, hp⟩)
    · left
      omega
    · right
      exact ⟨e1.symm, e2.symm, e3.symm, (cmpPre_gt_iff _ _).mp hp⟩
  · rintro (h | ⟨e1, e2, e3, hp⟩)
    · left
      omega
    · right
      exact ⟨e1.symm, e2.symm, e3.symm, (cmpPre_gt_iff _ _).mpr hp⟩

/-- Strict semver precedence in propositional form. -/
theorem vLt_true_iff (a b : SemVer) :
    vLt a b = true ↔ cmpSemVer a b = .lt := by
  simp [vLt]

/-- Strict semver precedence is transitive. -/
theorem vLt_trans {a b c : SemVer}
    (h1 : vLt a b = true) (h2 : vLt b c = true) : vLt a c = true := by
  rw [vLt_true_iff, cmpSemVer_lt_char] at h1 h2 ⊢
  rcases h1 with h1 | ⟨e1, e2, e3, hp1⟩ <;>
    rcases h2 with h2 | ⟨f1, f2, f3, hp2⟩
  · left; omega
  · left; omega
  · left; omega
  · right
    exact ⟨by omega, by omega, by omega, cmpPre_lt_trans _ _ _ hp1 hp2⟩

/-- Strict semver precedence is irreflexive. -/
theorem vLt_irrefl (a : SemVer) : vLt a a = false := by
  simp [vLt, cmpSemVer_refl]

/-- Whatever is not above `ca` is not above anything below `ca`. -/
theorem vLt_below_of_lt {cr ca cy : SemVer}
    (h1 : vLt cy ca = true) (h2 : vLt cr ca = false) : vLt cr cy = false := by
  cases h : vLt cr cy with
  | false => rfl
  | true =>
    rw [vLt_trans h h1] at h2
    cases h2

/-- Whatever is not above `cy` is not above anything at or below `cy`. -/
theorem vLt_below_of_ge {cr ca cy : SemVer}
    (h1 : vLt cy ca = false) (h2 : vLt cr cy = false) : vLt cr ca = false := by
  cases h : vLt cr ca with
  | false => rfl
  | true =>
    exfalso
    cases ho : cmpSemVer cy ca with
    | lt =>
      rw [(vLt_true_iff cy ca).mpr ho] at h1
      cases h1
    | eq =>
      rw [cmpSemVer_eq_imp cy ca ho] at h2
      rw [h] at h2
      cases h2
    | gt =>
      have hay : vLt ca cy = true :=
        (vLt_true_iff ca cy).mpr ((cmpSemVer_gt_iff cy ca).mp ho)
      rw [vLt_trans h hay] at h2
      cases h2

/-- On parseable versions the comparator closure is semver precedence. -/
theorem s3Cmp_parsed {x y : Release} {cx cy : SemVer}
    (hx : parseSemVer x.version = some cx)
    (hy : parseSemVer y.version = some cy) :
    s3Cmp x y = if vLt cy cx then Ordering.gt else Ordering.lt := by
  unfold s3Cmp bump_is_greater
  rw [hx, hy]
  dsimp only
  cases vLt cy cx <;> rfl

/-- The `max_by` fold result is maximal among parseable versions. -/
theorem foldl_rustMaxBy2_max (xs : List Release) (acc : Release)
    (ca : SemVer) (hacc : parseSemVer acc.version = some ca)
    (hall : ∀ s ∈ xs, ∃ cs, parseSemVer s.version = some cs) :
    ∃ cr, parseSemVer (xs.foldl (rustMaxBy2 s3Cmp) acc).version = some cr ∧
      vLt cr ca = false ∧
      (∀ s ∈ xs, ∀ cs, parseSemVer s.version = some cs →
        vLt cr cs = false) := by
  induction xs generalizing acc ca with
  | nil =>
    exact ⟨ca, hacc, vLt_irrefl ca, by simp⟩
  | cons y ys ih =>
    obtain ⟨cy, hcy⟩ := hall y (by simp)
    have hallys : ∀ s ∈ ys, ∃ cs, parseSemVer s.version = some cs :=
      fun s hs => hall s (by simp [hs])
    simp only [List.foldl_cons]
    have hstep : rustMaxBy2 s3Cmp acc y = if vLt cy ca then acc else y := by
      unfold rustMaxBy2
      rw [s3Cmp_parsed hacc hcy]
      cases hv : vLt cy ca <;> simp
    by_cases hv : vLt cy ca = true
    · rw [hstep, if_pos hv]
      obtain ⟨cr, hcr, hcra, hcrys⟩ := ih acc ca hacc hallys
      refine ⟨cr, hcr, hcra, ?_⟩
      intro s hs cs hcs
      rcases List.mem_cons.mp hs with h | h
      · subst h
        rw [hcy] at hcs
        injection hcs with h2
        subst h2
        exact vLt_below_of_lt hv hcra
      · exact hcrys s h cs hcs
    · have hv2 : vLt cy ca = false := by
        cases h : vLt cy ca
        · rfl
        · exact absurd h hv
      rw [hstep, if_neg (by rw [hv2]; simp)]
      obtain ⟨cr, hcr, hcry, hcrys⟩ := ih y cy hcy hallys
      refine ⟨cr, hcr, vLt_below_of_ge hv2 hcry, ?_⟩
      intro s hs cs hcs
      rcases List.mem_cons.mp hs with h | h
      · subst h
        rw [hcy] at hcs
        injection hcs with h2
        subst h2
        exact hcry
      · exact hcrys s h cs hcs

end SelfUpdate

namespace SelfUpdate

/-- Release with a parseable version, for the C8 theorems. -/
def relGood : Release := ⟨"tool", "1.0.0", "", none, []⟩

/-- Release whose version string fails to parse, for the C8 theorems. -/
def relBad : Release := ⟨"tool", "not-a-version", "", none, []⟩

/-- C8 counterexample: a release whose version fails to parse is not
always disqualified — the comparator maps the parse failure to `Less`,
which makes the later element win the `max_by` fold, so the unparsable
release is returned as latest when it is listed after the parseable
one. -/
theorem s3_latest_parse_failure_counterexample :
    parseSemVer relBad.version = none ∧
    get_latest_release [relGood, relBad] = .ok relBad ∧
    get_latest_release [relGood, relBad] ≠ .ok relGood := by
  refine ⟨rfl, rfl, by decide⟩

/-- C8 amended: the S3 `get_latest_release` never aborts on a
version-parse failure — any nonempty listing yields a release, always
one of the listed ones; and when every listed version is valid semver,
the result is maximal: no listed release's version is a strict bump
over it.  A parse failure is treated as `Ordering::Less` in the
comparison, which makes the later element of the compared pair win the
fold — so a release with an unparsable version is not barred from
being chosen: it can itself be returned as latest. -/
theorem s3_get_latest_release_max (releases : List Release) (r : Release) :
    (releases ≠ [] → ∃ r2, get_latest_release releases = .ok r2) ∧
    (get_latest_release releases = .ok r → r ∈ releases) ∧
    ((∀ s ∈ releases, ∃ cs, parseSemVer s.version = some cs) →
      get_latest_release releases = .ok r →
      ∀ s ∈ releases, bump_is_greater r.version s.version ≠ .ok true) := by
  refine ⟨?_, ?_, ?_⟩
  · intro hne
    cases releases with
    | nil => exact absurd rfl hne
    | cons x xs => exact ⟨xs.foldl (rustMaxBy2 s3Cmp) x, rfl⟩
  · intro h
    cases releases with
    | nil => cases h
    | cons x xs =>
      unfold get_latest_release rustMaxBy at h
      dsimp only at h
      injection h with h2
      rw [← h2]
      rcases foldl_rustMaxBy2_mem s3Cmp xs x with h3 | h3
      · rw [h3]; simp
      · simp [h3]
  · intro hall h s hs
    cases releases with
    | nil => cases h
    | cons x xs =>
      unfold get_latest_release rustMaxBy at h
      dsimp only at h
      injection h with h2
      obtain ⟨cx, hcx⟩ := hall x (by simp)
      obtain ⟨cr, hcr, hcra, hcrys⟩ :=
        foldl_rustMaxBy2_max xs x cx hcx
          (fun s2 hs2 => hall s2 (by simp [hs2]))
      rw [h2] at hcr
      obtain ⟨cs, hcs⟩ := hall s hs
      have hfalse : vLt cr cs = false := by
        rcases List.mem_cons.mp hs with hx | hx
        · subst hx
          rw [hcx] at hcs
          injection hcs with h3
          subst h3
          exact hcra
        · exact hcrys s hx cs hcs
      unfold bump_is_greater
      rw [hcs, hcr]
      dsimp only
      intro hcontra
      injection hcontra with h4
      rw [hfalse] at h4
      cases h4

/-- Witness for C8 at a one-element listing with a parseable version:
the listing yields its only release and nothing is strictly greater. -/
theorem s3_get_latest_release_max_witness :
    get_latest_release [relGood] = .ok relGood ∧
    relGood ∈ [relGood] ∧
    bump_is_greater relGood.version relGood.version ≠ .ok true := by
  have h := s3_get_latest_release_max [relGood] relGood
  refine ⟨rfl, h.2.1 rfl, h.2.2 ?_ rfl relGood (by simp)⟩
  intro s hsmem
  rw [List.mem_singleton.mp hsmem]
  exact ⟨⟨1, 0, 0, []⟩, rfl⟩

end SelfUpdate

namespace SelfUpdate

/-! ## The S3 listing (src/backends/s3.rs 448-586)

`fetch_releases_from_s3` pulls the bucket's XML object listing through a
streaming reader and folds its events; the XML reader is the external
collaborator, so the embedding takes the event stream as input.  Each
`Key` text is matched against the crate's filename regex
`(?i)(?P<prefix>.*/)*(?P<name>.+)-[v]{0,1}(?P<version>\d+\.\d+\.\d+)-.+`;
the regex engine is modelled below for this fixed pattern with the
engine's leftmost-first, greedy-preference semantics (`.` matching any
character but a newline, the pattern anchored nowhere). -/

/-- What the regex metacharacter `.` matches. -/
def dotC (c : Char) : Bool := c != '\n'

/-- Maximal digit run: the greedy `\d+` (deterministic, since whatever
follows it in the pattern is never a digit). -/
def takeDigits : List Char → List Char × List Char
  | [] => ([], [])
  | c :: rest =>
    if c.isDigit then
      let p := takeDigits rest
      (c :: p.1, p.2)
    else ([], c :: rest)

/-- The `\d+\.\d+\.\d+` version group: three digit runs joined by dots,
returning the capture and the remainder. -/
def matchVersionFrom (s : List Char) : Option (List Char × List Char) :=
  match takeDigits s with
  | ([], _) => none
  | (c1 :: d1, r1) =>
    match r1 with
    | '.' :: r2 =>
      match takeDigits r2 with
      | ([], _) => none
      | (c2 :: d2, r3) =>
        match r3 with
        | '.' :: r4 =>
          match takeDigits r4 with
          | ([], _) => none
          | (c3 :: d3, r5) =>
            some ((c1 :: d1) ++ '.' :: (c2 :: d2) ++ '.' :: (c3 :: d3), r5)
        | _ => none
    | _ => none

/-- The pattern tail after the name's literal `-`: an optional `v`/`V`
(case-insensitive from `(?i)`), the version group, a literal `-`, and at
least one further `.`-matching character.  Skipping the optional `v` is
forced whenever it is present, since the version must start with a
digit. -/
def matchTailAfterDash (s : List Char) : Option (List Char) :=
  let s1 := match s with
    | c :: rest => if c = 'v' ∨ c = 'V' then rest else c :: rest
    | [] => ([] : List Char)
  match matchVersionFrom s1 with
  | none => none
  | some (ver, rest) =>
    match rest with
    | '-' :: c :: _ => if dotC c then some ver else none
    | _ => none

/-- The greedy `(?P<name>.+)-` followed by the tail, at a fixed start:
the longest newline-free name whose following `-` starts a matching
tail wins. -/
def tryNameAt (s : List Char) : Option (List Char × List Char) :=
  ((List.range s.length).reverse).findSome? (fun j =>
    if j = 0 then none
    else
      match s.drop j with
      | '-' :: rest =>
        if (s.take j).all dotC then
          match matchTailAfterDash rest with
          | some ver => some (s.take j, ver)
          | none => none
        else none
      | _ => none)

/-- Candidate consumption points of the greedy `(?P<prefix>.*/)*` star:
positions just after a `/` reachable through newline-free text, longest
first (the greedy preference). -/
def prefixPoints (s : List Char) : List Nat :=
  ((List.range (s.length + 1)).reverse).filter (fun q =>
    decide (1 ≤ q) && (s.take q).all dotC &&
      (match s.drop (q - 1) with
       | '/' :: _ => true
       | _ => false))

/-- The whole pattern at a fixed start position: try the prefix star's
consumption points greedily, then no prefix at all. -/
def tryAt (s : List Char) : Option (List Char × List Char) :=
  (prefixPoints s ++ [0]).findSome? (fun q => tryNameAt (s.drop q))

/-- Model of `regex.captures(key)` for the S3 filename pattern: earliest
match start wins (leftmost), greedier alternatives first within it;
returns the `name` and `version` captures. -/
def s3KeyCaptures (key : String) : Option (String × String) :=
  (List.range (key.data.length + 1)).findSome? (fun p =>
    match tryAt (key.data.drop p) with
    | some (n, v) => some ((⟨n⟩ : String), (⟨v⟩ : String))
    | none => none)

/-- The `exe_name` of a key (src/backends/s3.rs 521-525):
`Path::file_name` when it is readable, the whole key otherwise. -/
def keyExeName (txt : String) : String :=
  match fileNameL? txt.data with
  | some v => ⟨v⟩
  | none => txt

/-- Handling of one `Key` text (src/backends/s3.rs 520-539): a
regex-matching key populates (or starts) the current release, setting
name, `v`-stripped version and the single synthesized asset; a
non-matching key only logs. -/
def processKeyText (base : String) (cur : Option Release) (txt : String) :
    Option Release :=
  match s3KeyCaptures txt with
  | some (nm, ver) =>
    let release := cur.getD releaseDefault
    some { release with
      name := nm
      version := ⟨ver.data.dropWhile (fun c => c == 'v')⟩
      assets := [⟨base ++ txt, keyExeName txt⟩] }
  | none => cur

/-- Rust `Iterator::position`. -/
def listPosition {α : Type} (p : α → Bool) : List α → Option Nat
  | [] => none
  | a :: l => if p a then some 0 else (listPosition p l).map (· + 1)

/-- Transcription of `add_to_releases_list` (src/backends/s3.rs
572-586): a candidate with an empty name or version is dropped; one
whose `(name, version)` pair is already listed replaces that entry,
appending the old assets after its own (`push` + `swap_remove` keeps it
at the same index); otherwise it is appended. -/
def add_to_releases_list (releases : List Release) (rel : Release) :
    List Release :=
  if rel.version ≠ "" ∧ rel.name ≠ "" then
    match listPosition
        (fun curr => curr.name == rel.name && curr.version == rel.version)
        releases with
    | some index =>
      match releases[index]? with
      | some old => releases.set index { rel with assets := rel.assets ++ old.assets }
      | none => releases
    | none => releases ++ [rel]
  else releases

/-- Events of the streaming XML reader, as the loop distinguishes them. -/
inductive XmlEvent where
  | startTag (name : String)
  | text (s : String)
  | eof
  | readErr (msg : String)
  deriving Repr, DecidableEq

/-- Mirror of the loop-local `Tag` (src/backends/s3.rs 481-486). -/
inductive S3Tag where
  | contents
  | key
  | lastModified
  | other
  deriving Repr, DecidableEq

/-- Flushing the current candidate into the list, as done at each new
`Contents` element and at end of stream. -/
def s3Flush (releases : List Release) (cur : Option Release) : List Release :=
  match cur with
  | some r => add_to_releases_list releases r
  | none => releases

/-- The event loop of `fetch_releases_from_s3` (src/backends/s3.rs
500-565): `Contents` flushes the candidate, `Key`/`LastModified` set the
tag, a text under `Key` runs the regex population, a text under
`LastModified` sets the date, end of stream flushes and returns, and a
reader error aborts with a `Release`-kind error.  An exhausted stream
behaves as the reader's end of file. -/
def fetchLoop (base : String) :
    S3Tag → Option Release → List Release → List XmlEvent →
    Except Error (List Release)
  | _, cur, releases, [] => .ok (s3Flush releases cur)
  | tag, cur, releases, ev :: rest =>
    match ev with
    | .startTag n =>
      if n = "Contents" then fetchLoop base .contents none (s3Flush releases cur) rest
      else if n = "Key" then fetchLoop base .key cur releases rest
      else if n = "LastModified" then fetchLoop base .lastModified cur releases rest
      else fetchLoop base .other cur releases rest
    | .text txt =>
      match tag with
      | .key => fetchLoop base tag (processKeyText base cur txt) releases rest
      | .lastModified =>
        fetchLoop base tag (some { cur.getD releaseDefault with date := txt })
          releases rest
      | _ => fetchLoop base tag cur releases rest
    | .eof => .ok (s3Flush releases cur)
    | .readErr msg =>
      .error (.release ("Failed when parsing S3 XML response: " ++ msg))

/-- Transcription of the parsing part of `fetch_releases_from_s3`
(src/backends/s3.rs 448-568), given the download base url
`https://{bucket}.s3.{region}.amazonaws.com/` and the reader's events. -/
def fetch_releases_from_s3 (base : String) (events : List XmlEvent) :
    Except Error (List Release) :=
  fetchLoop base .other none [] events

/-- One bucket object of the listing: its `Key` and `LastModified`
texts, when present. -/
structure S3Item where
  key : Option String
  date : Option String
  deriving Repr, DecidableEq

/-- The canonical event block of one `Contents` element. -/
def eventsOfItem (it : S3Item) : List XmlEvent :=
  .startTag "Contents" ::
    ((match it.key with
      | some k => [.startTag "Key", .text k]
      | none => []) ++
     (match it.date with
      | some d => [.startTag "LastModified", .text d]
      | none => []))

/-- The canonical event stream of a listing of `Contents` elements. -/
def eventsOfItems (items : List S3Item) : List XmlEvent :=
  (items.map eventsOfItem).flatten

/-- The candidate release one `Contents` element builds up. -/
def candidateOfItem (base : String) (it : S3Item) : Option Release :=
  match it.date with
  | some d =>
    some { (match it.key with
            | some k => processKeyText base none k
            | none => none).getD releaseDefault with date := d }
  | none =>
    match it.key with
    | some k => processKeyText base none k
    | none => none

/-- The per-item fold the loop computes on a canonical stream. -/
def processItems (base : String) (items : List S3Item) : List Release :=
  items.foldl (fun r it => s3Flush r (candidateOfItem base it)) []

end SelfUpdate

namespace SelfUpdate

/-- The event loop on a canonical stream of `Contents` blocks computes
the per-item fold: each block flushes the previous candidate and builds
`candidateOfItem`; the end of stream flushes the last one. -/
theorem fetchLoop_items (base : String) (items : List S3Item) :
    ∀ (tag : S3Tag) (cur : Option Release) (releases : List Release),
    fetchLoop base tag cur releases (eventsOfItems items) =
      .ok (items.foldl (fun r it => s3Flush r (candidateOfItem base it))
        (s3Flush releases cur)) := by
  induction items with
  | nil =>
    intro tag cur releases
    rfl
  | cons it its ih =>
    intro tag cur releases
    have hsplit : eventsOfItems (it :: its) = eventsOfItem it ++ eventsOfItems its := by
      simp [eventsOfItems]
    rw [hsplit]
    cases hk : it.key <;> cases hd : it.date <;>
      simp [eventsOfItem, hk, hd, fetchLoop, ih, candidateOfItem, s3Flush]

end SelfUpdate

namespace SelfUpdate

/-- Two releases carrying the same `(name, version)` identity. -/
def samePair (a b : Release) : Prop := a.name = b.name ∧ a.version = b.version

/-- No two positions of the list carry the same `(name, version)`. -/
def pairwiseDistinct (R : List Release) : Prop :=
  ∀ (i j : Nat) (a b : Release), i ≠ j → R[i]? = some a → R[j]? = some b →
    ¬ samePair a b

/-- Some release of the list carries the identity and owns the asset. -/
def hasAsset (R : List Release) (nm ver : String) (a : ReleaseAsset) : Prop :=
  ∃ r, r ∈ R ∧ r.name = nm ∧ r.version = ver ∧ a ∈ r.assets

/-- An index found by `Iterator::position` holds a matching element. -/
theorem listPosition_some {α : Type} (p : α → Bool) (l : List α) :
    ∀ i : Nat, listPosition p l = some i →
      ∃ old, l[i]? = some old ∧ p old = true := by
  induction l with
  | nil => intro i h; cases h
  | cons a l ih =>
    intro i h
    unfold listPosition at h
    by_cases hp : p a
    · rw [if_pos hp] at h
      injection h with h2
      subst h2
      exact ⟨a, by simp, hp⟩
    · rw [if_neg hp] at h
      cases hl : listPosition p l with
      | none => rw [hl] at h; cases h
      | some j =>
        rw [hl] at h
        have h2 : j + 1 = i := by simpa using h
        obtain ⟨old, ho, hpo⟩ := ih j hl
        refine ⟨old, ?_, hpo⟩
        rw [← h2, List.getElem?_cons_succ]
        exact ho

/-- `Iterator::position` fails only when nothing matches. -/
theorem listPosition_none {α : Type} (p : α → Bool) (l : List α)
    (h : listPosition p l = none) : ∀ x ∈ l, p x = false := by
  induction l with
  | nil => simp
  | cons a l ih =>
    unfold listPosition at h
    by_cases hp : p a
    · rw [if_pos hp] at h; cases h
    · rw [if_neg hp] at h
      intro x hx
      rcases List.mem_cons.mp hx with h2 | h2
      · subst h2; simpa using hp
      · refine ih ?_ x h2
        cases hl : listPosition p l with
        | none => rfl
        | some j => rw [hl] at h; cases h

/-- Reading a `set` list: the set index when in range, the old list
elsewhere. -/
theorem getElem?_set_general {α : Type} (l : List α) (i j : Nat) (a : α) :
    (l.set i a)[j]? = if i = j ∧ i < l.length then some a else l[j]? := by
  induction l generalizing i j with
  | nil => simp
  | cons x l ih =>
    cases i with
    | zero =>
      cases j with
      | zero => simp
      | succ m => simp
    | succ n =>
      cases j with
      | zero => simp
      | succ m =>
        simp only [List.set_cons_succ, List.getElem?_cons_succ, ih n m]
        by_cases h : n = m ∧ n < l.length
        · rw [if_pos h, if_pos ⟨by omega, by simp; omega⟩]
        · rw [if_neg h, if_neg (by simp; omega)]

/-- Reading an appended singleton. -/
theorem getElem?_append_single {α : Type} (l : List α) (x : α) (i : Nat) :
    (l ++ [x])[i]? =
      if i < l.length then l[i]?
      else if i = l.length then some x else none := by
  induction l generalizing i with
  | nil =>
    cases i with
    | zero => simp
    | succ n => simp
  | cons a l ih =>
    cases i with
    | zero => simp
    | succ n =>
      simp only [List.cons_append, List.getElem?_cons_succ, ih n, List.length_cons]
      by_cases h : n < l.length
      · rw [if_pos h, if_pos (by omega)]
      · rw [if_neg h, if_neg (show ¬ n + 1 < l.length + 1 by omega)]
        by_cases h2 : n = l.length
        · rw [if_pos h2, if_pos (by omega)]
        · rw [if_neg h2, if_neg (by omega)]

/-- Membership from a positional read. -/
theorem mem_of_getElem?_some {α : Type} {l : List α} {i : Nat} {a : α}
    (h : l[i]? = some a) : a ∈ l := by
  obtain ⟨hl, he⟩ := List.getElem?_eq_some.mp h
  exact he ▸ List.getElem_mem hl

/-- A positional read for every member. -/
theorem getElem?_some_of_mem {α : Type} {l : List α} {a : α} (h : a ∈ l) :
    ∃ i : Nat, l[i]? = some a := by
  obtain ⟨i, hi, hv⟩ := List.getElem_of_mem h
  refine ⟨i, ?_⟩
  rw [List.getElem?_eq_getElem hi, hv]

/-- The match predicate of `add_to_releases_list` names `samePair`. -/
theorem add_pred_eq_samePair (curr rel : Release) :
    ((curr.name == rel.name && curr.version == rel.version) = true) ↔
      samePair curr rel := by
  unfold samePair
  simp

/-- A candidate with an empty identity is discarded unchanged. -/
theorem add_discard (R : List Release) (rel : Release)
    (h : rel.version = "" ∨ rel.name = "") :
    add_to_releases_list R rel = R := by
  unfold add_to_releases_list
  rw [if_neg]
  rcases h with h | h <;> simp [h]

end SelfUpdate

namespace SelfUpdate

/-- Every release of an updated list has a non-empty identity when every
release of the original list has: the merged entry and an appended
candidate inherit the candidate's non-empty identity, and empty-identity
candidates are dropped. -/
theorem add_mem_identity (R : List Release) (rel r : Release)
    (hR : ∀ x ∈ R, x.name ≠ "" ∧ x.version ≠ "")
    (hr : r ∈ add_to_releases_list R rel) : r.name ≠ "" ∧ r.version ≠ "" := by
  unfold add_to_releases_list at hr
  by_cases hcond : rel.version ≠ "" ∧ rel.name ≠ ""
  · rw [if_pos hcond] at hr
    cases hpos : listPosition
        (fun curr => curr.name == rel.name && curr.version == rel.version) R with
    | some index =>
      rw [hpos] at hr
      dsimp only at hr
      cases hget : R[index]? with
      | some old =>
        rw [hget] at hr
        dsimp only at hr
        rcases List.mem_or_eq_of_mem_set hr with h | h
        · exact hR r h
        · subst h
          exact ⟨hcond.2, hcond.1⟩
      | none =>
        rw [hget] at hr
        exact hR r hr
    | none =>
      rw [hpos] at hr
      dsimp only at hr
      rcases List.mem_append.mp hr with h | h
      · exact hR r h
      · rw [List.mem_singleton.mp h]
        exact ⟨hcond.2, hcond.1⟩
  · rw [if_neg hcond] at hr
    exact hR r hr

/-- `add_to_releases_list` keeps the `(name, version)` identities
pairwise distinct: a merged entry keeps the identity it replaces, and a
candidate is appended only when its identity is absent. -/
theorem add_pairwise (R : List Release) (rel : Release)
    (h : pairwiseDistinct R) :
    pairwiseDistinct (add_to_releases_list R rel) := by
  unfold add_to_releases_list
  by_cases hcond : rel.version ≠ "" ∧ rel.name ≠ ""
  · rw [if_pos hcond]
    cases hpos : listPosition
        (fun curr => curr.name == rel.name && curr.version == rel.version) R with
    | some index =>
      obtain ⟨old, hold, hpold⟩ := listPosition_some _ R index hpos
      dsimp only
      rw [hold]
      dsimp only
      have hsame : samePair old rel := (add_pred_eq_samePair old rel).mp hpold
      have hlen : index < R.length := (List.getElem?_eq_some.mp hold).choose
      intro i j a b hne hia hjb
      rw [getElem?_set_general] at hia hjb
      by_cases hi : index = i ∧ index < R.length
      · rw [if_pos hi] at hia
        injection hia with ha2
        subst ha2
        have hj : ¬ (index = j ∧ index < R.length) := by
          intro hc
          exact hne (hi.1 ▸ hc.1 ▸ rfl)
        rw [if_neg hj] at hjb
        intro hab
        -- the merged entry carries the identity of `old`; `b` sits elsewhere
        have hab2 : samePair old b := by
          refine ⟨?_, ?_⟩
          · rw [hsame.1]
            exact hab.1
          · rw [hsame.2]
            exact hab.2
        exact h index j old b (hi.1 ▸ hne) hold hjb hab2
      · rw [if_neg hi] at hia
        by_cases hj : index = j ∧ index < R.length
        · rw [if_pos hj] at hjb
          injection hjb with hb2
          subst hb2
          intro hab
          have hab2 : samePair a old := by
            refine ⟨?_, ?_⟩
            · rw [hsame.1]
              exact hab.1
            · rw [hsame.2]
              exact hab.2
          exact h i index a old (hj.1 ▸ hne) hia hold hab2
        · rw [if_neg hj] at hjb
          exact h i j a b hne hia hjb
    | none =>
      have hnone := listPosition_none _ R hpos
      dsimp only
      intro i j a b hne hia hjb
      rw [getElem?_append_single] at hia hjb
      by_cases hi : i < R.length
      · rw [if_pos hi] at hia
        by_cases hj : j < R.length
        · rw [if_pos hj] at hjb
          exact h i j a b hne hia hjb
        · rw [if_neg hj] at hjb
          by_cases hj2 : j = R.length
          · rw [if_pos hj2] at hjb
            injection hjb with hb2
            subst hb2
            intro hab
            have : (a.name == rel.name && a.version == rel.version) = true := by
              rw [add_pred_eq_samePair]
              exact hab
            rw [hnone a (mem_of_getElem?_some hia)] at this
            cases this
          · rw [if_neg hj2] at hjb
            cases hjb
      · rw [if_neg hi] at hia
        by_cases hi2 : i = R.length
        · rw [if_pos hi2] at hia
          injection hia with ha2
          subst ha2
          by_cases hj : j < R.length
          · rw [if_pos hj] at hjb
            intro hab
            have : (b.name == rel.name && b.version == rel.version) = true := by
              rw [add_pred_eq_samePair]
              exact ⟨hab.1.symm, hab.2.symm⟩
            rw [hnone b (mem_of_getElem?_some hjb)] at this
            cases this
          · rw [if_neg hj] at hjb
            by_cases hj2 : j = R.length
            · exact absurd (hi2 ▸ hj2 ▸ rfl) (Ne.symm hne)
            · rw [if_neg hj2] at hjb
              cases hjb
        · rw [if_neg hi2] at hia
          cases hia
  · rw [if_neg hcond]
    exact h

end SelfUpdate

namespace SelfUpdate

/-- Merging a candidate never loses an asset: an asset held under some
identity is still held under it afterwards (the merged entry appends the
replaced entry's assets after the candidate's). -/
theorem add_hasAsset_mono (R : List Release) (rel : Release)
    (nm ver : String) (a : ReleaseAsset) (hdist : pairwiseDistinct R)
    (h : hasAsset R nm ver a) :
    hasAsset (add_to_releases_list R rel) nm ver a := by
  obtain ⟨r, hrR, hrn, hrv, hra⟩ := h
  unfold add_to_releases_list
  by_cases hcond : rel.version ≠ "" ∧ rel.name ≠ ""
  · rw [if_pos hcond]
    cases hpos : listPosition
        (fun curr => curr.name == rel.name && curr.version == rel.version) R with
    | none =>
      dsimp only
      exact ⟨r, List.mem_append_left _ hrR, hrn, hrv, hra⟩
    | some index =>
      obtain ⟨old, hold, hpold⟩ := listPosition_some _ R index hpos
      have hsame : samePair old rel := (add_pred_eq_samePair old rel).mp hpold
      have hlen : index < R.length := (List.getElem?_eq_some.mp hold).choose
      dsimp only
      rw [hold]
      dsimp only
      obtain ⟨jr, hjr⟩ := getElem?_some_of_mem hrR
      by_cases hsr : samePair r rel
      · -- `r` carries the candidate's identity, so `r` is the replaced
        -- entry and its assets moved into the merged one
        have hreq : r = old := by
          by_cases hij : jr = index
          · rw [hij, hold] at hjr
            injection hjr with h2
            exact h2.symm
          · exact absurd ⟨hsr.1.trans hsame.1.symm, hsr.2.trans hsame.2.symm⟩
              (hdist jr index r old hij hjr hold)
        refine ⟨{ rel with assets := rel.assets ++ old.assets }, ?_, ?_, ?_, ?_⟩
        · apply mem_of_getElem?_some (i := index)
          rw [getElem?_set_general]
          rw [if_pos ⟨rfl, hlen⟩]
        · show rel.name = nm
          rw [← hsame.1, ← hreq]
          exact hrn
        · show rel.version = ver
          rw [← hsame.2, ← hreq]
          exact hrv
        · exact List.mem_append_right _ (hreq ▸ hra)
      · -- `r` keeps its slot: it is not the replaced entry
        have hij : jr ≠ index := by
          intro hc
          rw [hc, hold] at hjr
          injection hjr with h2
          exact hsr (h2 ▸ hsame)
        refine ⟨r, ?_, hrn, hrv, hra⟩
        apply mem_of_getElem?_some (i := jr)
        rw [getElem?_set_general]
        rw [if_neg (by intro hc; exact hij hc.1.symm)]
        exact hjr
  · rw [if_neg hcond]
    exact ⟨r, hrR, hrn, hrv, hra⟩

/-- A valid candidate's own assets are present, under its identity, after
it is added: appended when the identity is new, in front of the merged
entry otherwise. -/
theorem add_hasAsset_new (R : List Release) (rel : Release) (a : ReleaseAsset)
    (hn : rel.name ≠ "") (hv : rel.version ≠ "") (ha : a ∈ rel.assets) :
    hasAsset (add_to_releases_list R rel) rel.name rel.version a := by
  unfold add_to_releases_list
  rw [if_pos ⟨hv, hn⟩]
  cases hpos : listPosition
      (fun curr => curr.name == rel.name && curr.version == rel.version) R with
  | none =>
    dsimp only
    exact ⟨rel, List.mem_append_right _ (by simp), rfl, rfl, ha⟩
  | some index =>
    obtain ⟨old, hold, hpold⟩ := listPosition_some _ R index hpos
    have hlen : index < R.length := (List.getElem?_eq_some.mp hold).choose
    dsimp only
    rw [hold]
    dsimp only
    refine ⟨{ rel with assets := rel.assets ++ old.assets }, ?_, rfl, rfl, ?_⟩
    · apply mem_of_getElem?_some (i := index)
      rw [getElem?_set_general]
      rw [if_pos ⟨rfl, hlen⟩]
    · exact List.mem_append_left _ ha

end SelfUpdate



namespace SelfUpdate

theorem takeDigits_digits (cs : List Char) :
    ∀ c ∈ (takeDigits cs).1, c.isDigit = true := by
  induction cs with
  | nil => simp [takeDigits]
  | cons a l ih =>
    intro c hc
    unfold takeDigits at hc
    by_cases h : a.isDigit
    · rw [if_pos h] at hc
      dsimp only at hc
      rcases List.mem_cons.mp hc with h2 | h2
      · subst h2
        exact h
      · exact ih c h2
    · rw [if_neg h] at hc
      simp at hc

theorem matchVersionFrom_facts (s v rest : List Char)
    (h : matchVersionFrom s = some (v, rest)) :
    ∃ c cs, v = c :: cs ∧ c.isDigit = true := by
  unfold matchVersionFrom at h
  split at h <;> try cases h
  rename_i c1 d1 r1 heq1
  split at h <;> try cases h
  split at h <;> try cases h
  split at h <;> try cases h
  split at h <;> try cases h
  exact ⟨_, _, rfl, takeDigits_digits s _
    (by rw [show (takeDigits s).1 = c1 :: d1 from congrArg Prod.fst heq1]; simp)⟩

theorem matchTailAfterDash_facts (s v : List Char)
    (h : matchTailAfterDash s = some v) :
    ∃ c cs, v = c :: cs ∧ c.isDigit = true := by
  unfold matchTailAfterDash at h
  cases s with
  | nil =>
    dsimp only at h
    split at h <;> try cases h
    rename_i ver rest heq
    split at h <;> try cases h
    split at h <;> try cases h
    exact matchVersionFrom_facts _ _ _ heq
  | cons c0 s0 =>
    dsimp only at h
    by_cases hc0 : c0 = 'v' ∨ c0 = 'V'
    · rw [if_pos hc0] at h
      split at h <;> try cases h
      rename_i ver rest heq
      split at h <;> try cases h
      split at h <;> try cases h
      exact matchVersionFrom_facts _ _ _ heq
    · rw [if_neg hc0] at h
      split at h <;> try cases h
      rename_i ver rest heq
      split at h <;> try cases h
      split at h <;> try cases h
      exact matchVersionFrom_facts _ _ _ heq

theorem digit_ne_v {c : Char} (h : c.isDigit = true) : (c == 'v') = false := by
  cases hc : (c == 'v')
  · rfl
  · have hcv : c = 'v' := eq_of_beq hc
    subst hcv
    exact absurd h (by decide)

theorem s3KeyCaptures_facts (k nm ver : String)
    (h : s3KeyCaptures k = some (nm, ver)) :
    nm ≠ "" ∧ ver ≠ "" ∧
      (⟨ver.data.dropWhile (fun c => c == 'v')⟩ : String) = ver := by
  unfold s3KeyCaptures at h
  obtain ⟨p, hp, hmp⟩ := List.exists_of_findSome?_eq_some h
  split at hmp <;> try cases hmp
  rename_i n v heq
  unfold tryAt at heq
  obtain ⟨q, hq, hQ⟩ := List.exists_of_findSome?_eq_some heq
  unfold tryNameAt at hQ
  obtain ⟨j, hj, hJ⟩ := List.exists_of_findSome?_eq_some hQ
  split at hJ <;> try cases hJ
  rename_i hj0
  split at hJ <;> try cases hJ
  rename_i rest hdrop
  split at hJ <;> try cases hJ
  rename_i hall
  split at hJ <;> try cases hJ
  rename_i hmt
  obtain ⟨c, cs, hvc, hcd⟩ := matchTailAfterDash_facts rest v hmt
  have hjlen : j < (List.drop q (List.drop p k.data)).length := by
    by_contra hc
    rw [List.drop_eq_nil_of_le (by omega)] at hdrop
    cases hdrop
  have hnne : (List.drop q (List.drop p k.data)).take j ≠ [] := by
    intro hc
    have hlen := congrArg List.length hc
    rw [List.length_take] at hlen
    simp only [List.length_nil] at hlen
    omega
  refine ⟨?_, ?_, ?_⟩
  · intro hc
    exact hnne (by simpa using congrArg String.data hc)
  · intro hc
    have hd := congrArg String.data hc
    simp [hvc] at hd
  · rw [show ({ data := v } : String).data = v from rfl, hvc, List.dropWhile_cons,
      digit_ne_v hcd]
    simp [hvc]

theorem candidate_key_fields (base : String) (it : S3Item) (k nm ver : String)
    (hk : it.key = some k) (hcap : s3KeyCaptures k = some (nm, ver)) :
    ∃ relC, candidateOfItem base it = some relC ∧ relC.name = nm ∧
      relC.version = (⟨ver.data.dropWhile (fun c => c == 'v')⟩ : String) ∧
      relC.assets = [⟨base ++ k, keyExeName k⟩] := by
  have hpk : processKeyText base none k = some
      ⟨nm, ⟨ver.data.dropWhile (fun c => c == 'v')⟩, "", none,
        [⟨base ++ k, keyExeName k⟩]⟩ := by
    unfold processKeyText
    rw [hcap]
    rfl
  unfold candidateOfItem
  rw [hk]
  cases hd : it.date with
  | none =>
    dsimp only
    rw [hpk]
    exact ⟨_, rfl, rfl, rfl, rfl⟩
  | some d =>
    dsimp only
    rw [hpk]
    exact ⟨_, rfl, rfl, rfl, rfl⟩

theorem candidate_nomatch (base : String) (it : S3Item) (k : String)
    (hk : it.key = some k) (hcap : s3KeyCaptures k = none) (R : List Release) :
    s3Flush R (candidateOfItem base it) = R := by
  have hpk : processKeyText base none k = none := by
    unfold processKeyText
    rw [hcap]
  unfold candidateOfItem
  rw [hk]
  cases hd : it.date with
  | none =>
    dsimp only
    rw [hpk]
    rfl
  | some d =>
    dsimp only
    rw [hpk]
    unfold s3Flush
    exact add_discard R _ (Or.inr rfl)

theorem processItems_identity (base : String) (items : List S3Item) :
    ∀ init : List Release, (∀ x ∈ init, x.name ≠ "" ∧ x.version ≠ "") →
    ∀ r ∈ items.foldl (fun r it => s3Flush r (candidateOfItem base it)) init,
      r.name ≠ "" ∧ r.version ≠ "" := by
  induction items with
  | nil =>
    intro init h r hr
    exact h r hr
  | cons it its ih =>
    intro init h r hr
    rw [List.foldl_cons] at hr
    refine ih _ ?_ r hr
    intro x hx
    unfold s3Flush at hx
    cases hc : candidateOfItem base it with
    | none =>
      rw [hc] at hx
      exact h x hx
    | some rel =>
      rw [hc] at hx
      exact add_mem_identity init rel x h hx

theorem processItems_invariant (base : String) (items : List S3Item) :
    ∀ init : List Release, pairwiseDistinct init →
      pairwiseDistinct
        (items.foldl (fun r it => s3Flush r (candidateOfItem base it)) init) ∧
      (∀ nm ver a, hasAsset init nm ver a →
        hasAsset (items.foldl (fun r it => s3Flush r (candidateOfItem base it)) init)
          nm ver a) ∧
      (∀ it ∈ items, ∀ k, it.key = some k → ∀ nm ver,
        s3KeyCaptures k = some (nm, ver) →
        hasAsset (items.foldl (fun r it => s3Flush r (candidateOfItem base it)) init)
          nm (⟨ver.data.dropWhile (fun c => c == 'v')⟩ : String)
          ⟨base ++ k, keyExeName k⟩) := by
  induction items with
  | nil =>
    intro init hinit
    exact ⟨hinit, fun nm ver a h => h, by simp⟩
  | cons it its ih =>
    intro init hinit
    simp only [List.foldl_cons]
    have hstep : pairwiseDistinct (s3Flush init (candidateOfItem base it)) := by
      unfold s3Flush
      cases candidateOfItem base it with
      | none => exact hinit
      | some rel => exact add_pairwise init rel hinit
    obtain ⟨d1, d2, d3⟩ := ih (s3Flush init (candidateOfItem base it)) hstep
    refine ⟨d1, ?_, ?_⟩
    · intro nm ver a h
      apply d2
      unfold s3Flush
      cases hc : candidateOfItem base it with
      | none => exact h
      | some rel => exact add_hasAsset_mono init rel nm ver a hinit h
    · intro it2 hit2 k hk nm ver hcap
      rcases List.mem_cons.mp hit2 with he | he
      · subst he
        obtain ⟨relC, hcand, hcn, hcv, hca⟩ :=
          candidate_key_fields base it2 k nm ver hk hcap
        apply d2
        unfold s3Flush
        rw [hcand]
        obtain ⟨hnm, hver, htrim⟩ := s3KeyCaptures_facts k nm ver hcap
        have hvne : relC.version ≠ "" := by
          rw [hcv, htrim]
          exact hver
        have hnne : relC.name ≠ "" := by
          rw [hcn]
          exact hnm
        have hnew := add_hasAsset_new init relC ⟨base ++ k, keyExeName k⟩
          hnne hvne (by rw [hca]; simp)
        rw [hcn, hcv] at hnew
        exact hnew
      · exact d3 it2 he k hk nm ver hcap

/-- C9: in the S3 listing parser, matching keys with the same
`(name, version)` pair merge into one Release — the result never holds
two releases with the same pair, and every matching key's synthesized
asset ends up in the release carrying its pair — while a key that does
not match the naming convention is skipped without error: deleting its
whole `Contents` element leaves the result unchanged (in particular the
listing still parses). -/
theorem s3_key_merge_accumulate (base : String) (items : List S3Item)
    (rs : List Release)
    (h : fetch_releases_from_s3 base (eventsOfItems items) = .ok rs) :
    pairwiseDistinct rs ∧
    (∀ it ∈ items, ∀ k, it.key = some k → ∀ nm ver,
      s3KeyCaptures k = some (nm, ver) →
      hasAsset rs nm (⟨ver.data.dropWhile (fun c => c == 'v')⟩ : String)
        ⟨base ++ k, keyExeName k⟩) ∧
    (∀ (pre post : List S3Item) (it : S3Item) (k : String), it.key = some k →
      s3KeyCaptures k = none →
      fetch_releases_from_s3 base (eventsOfItems (pre ++ it :: post)) =
        fetch_releases_from_s3 base (eventsOfItems (pre ++ post))) := by
  have hempty : pairwiseDistinct ([] : List Release) := by
    intro i j a b hne hia hjb
    simp at hia
  have hbridge : rs =
      items.foldl (fun r it => s3Flush r (candidateOfItem base it)) [] := by
    unfold fetch_releases_from_s3 at h
    rw [fetchLoop_items] at h
    injection h with h2
    rw [← h2]
    rfl
  obtain ⟨d1, _, d3⟩ := processItems_invariant base items [] hempty
  refine ⟨?_, ?_, ?_⟩
  · rw [hbridge]
    exact d1
  · intro it hit k hk nm ver hcap
    rw [hbridge]
    exact d3 it hit k hk nm ver hcap
  · intro pre post it k hk hcap
    unfold fetch_releases_from_s3
    rw [fetchLoop_items, fetchLoop_items]
    congr 1
    rw [List.foldl_append, List.foldl_append, List.foldl_cons]
    rw [candidate_nomatch base it k hk hcap]

/-- Download base url of the C9/C10 witnesses. -/
def baseW : String := "https://bucket.s3.region.amazonaws.com/"

/-- Listing of the C9 witness: two keys of the same `(tool, 1.0.0)`. -/
def itemsW9 : List S3Item :=
  [⟨some "tool-1.0.0-linux.tar.gz", some "2020-01-01"⟩,
   ⟨some "tool-1.0.0-darwin.tar.gz", some "2020-01-02"⟩]

/-- Parsed releases of the C9 witness: one merged release, two assets. -/
def rsW9 : List Release :=
  [⟨"tool", "1.0.0", "2020-01-02", none,
    [⟨baseW ++ "tool-1.0.0-darwin.tar.gz", "tool-1.0.0-darwin.tar.gz"⟩,
     ⟨baseW ++ "tool-1.0.0-linux.tar.gz", "tool-1.0.0-linux.tar.gz"⟩]⟩]

/-- Witness for C9: the two `tool-1.0.0` keys merge into the one listed
release, both assets are present, and inserting a non-matching
`README.md` element changes nothing. -/
theorem s3_key_merge_accumulate_witness :
    hasAsset rsW9 "tool" "1.0.0"
      ⟨baseW ++ "tool-1.0.0-linux.tar.gz", "tool-1.0.0-linux.tar.gz"⟩ ∧
    hasAsset rsW9 "tool" "1.0.0"
      ⟨baseW ++ "tool-1.0.0-darwin.tar.gz", "tool-1.0.0-darwin.tar.gz"⟩ ∧
    fetch_releases_from_s3 baseW
        (eventsOfItems ([] ++ (⟨some "README.md", some "2020-01-03"⟩ : S3Item) :: itemsW9)) =
      fetch_releases_from_s3 baseW (eventsOfItems ([] ++ itemsW9)) := by
  have h := s3_key_merge_accumulate baseW itemsW9 rsW9 (by decide)
  refine ⟨?_, ?_, ?_⟩
  · exact h.2.1 ⟨some "tool-1.0.0-linux.tar.gz", some "2020-01-01"⟩ (by simp [itemsW9])
      "tool-1.0.0-linux.tar.gz" rfl "tool" "1.0.0" (by decide)
  · exact h.2.1 ⟨some "tool-1.0.0-darwin.tar.gz", some "2020-01-02"⟩ (by simp [itemsW9])
      "tool-1.0.0-darwin.tar.gz" rfl "tool" "1.0.0" (by decide)
  · exact h.2.2 [] itemsW9 ⟨some "README.md", some "2020-01-03"⟩ "README.md" rfl
      (by decide)

/-- C10: every release the S3 listing parser returns has a non-empty name
and a non-empty version; a `Contents` element that populated only the
date produces a candidate with empty identity fields, and
`add_to_releases_list` silently discards such a candidate. -/
theorem s3_release_identity_nonempty (base : String) (items : List S3Item)
    (rs : List Release)
    (h : fetch_releases_from_s3 base (eventsOfItems items) = .ok rs) :
    (∀ r ∈ rs, r.name ≠ "" ∧ r.version ≠ "") ∧
    (∀ d : String, candidateOfItem base ⟨none, some d⟩ =
      some { releaseDefault with date := d }) ∧
    (∀ (R : List Release) (d : String),
      add_to_releases_list R { releaseDefault with date := d } = R) := by
  have hbridge : rs =
      items.foldl (fun r it => s3Flush r (candidateOfItem base it)) [] := by
    unfold fetch_releases_from_s3 at h
    rw [fetchLoop_items] at h
    injection h with h2
    rw [← h2]
    rfl
  refine ⟨?_, ?_, ?_⟩
  · intro r hr
    rw [hbridge] at hr
    exact processItems_identity base items [] (by simp) r hr
  · intro d
    rfl
  · intro R d
    exact add_discard R _ (Or.inl rfl)

/-- Listing of the C10 witness: one matching key and one date-only
element. -/
def itemsW10 : List S3Item :=
  [⟨some "tool-1.0.0-linux.tar.gz", some "2020-01-01"⟩, ⟨none, some "2020-01-02"⟩]

/-- Parsed releases of the C10 witness: the date-only element left no
trace. -/
def rsW10 : List Release :=
  [⟨"tool", "1.0.0", "2020-01-01", none,
    [⟨baseW ++ "tool-1.0.0-linux.tar.gz", "tool-1.0.0-linux.tar.gz"⟩]⟩]

/-- Witness for C10 on a concrete listing with a date-only `Contents`
element. -/
theorem s3_release_identity_nonempty_witness :
    (∀ r ∈ rsW10, r.name ≠ "" ∧ r.version ≠ "") ∧
    candidateOfItem baseW ⟨none, some "2020-01-02"⟩ =
      some { releaseDefault with date := "2020-01-02" } ∧
    add_to_releases_list [] { releaseDefault with date := "2020-01-02" } = [] := by
  have h := s3_release_identity_nonempty baseW itemsW10 rsW10 (by decide)
  exact ⟨h.1, h.2.1 "2020-01-02", h.2.2 [] "2020-01-02"⟩

end SelfUpdate
